import Mathlib

/-! kube-appdeploy: `process.go`

A shallow embedding of `src/process.go` (package `appdeploy`) and the
properties of it that the repository's specification states.

* Go `string` and `[]byte` values are Lean `String`s (sequences of code
  points; byte sequences that are not valid UTF-8 are outside the model).
* A Go `error` is `Option GoError`; `none` is `nil`.
* Interfaces (`ManifestSource`, `Target`) are records of functions; the
  target's storage is an explicit state of type `σ`.
* The goroutines that `Process` starts are small state machines over the
  variables they share (`err`, `seen`); a schedule picks which one moves next.
  A store to `err` is two steps, one for each word of the interface value;
  an `append` to `seen` is a read and a store.
* The case tables of Go's `unicode` package are a parameter, `lowerCase`.
-/

namespace appdeploy

/-! ## Data model -/

/-- A Go `error` value that is not nil, with the text that `Error()` gives. -/
structure GoError where
  msg : String
deriving DecidableEq

/-- Go: `type Metadata struct { Name string }` -/
structure Metadata where
  Name : String
deriving DecidableEq

/-- Go: `type Manifest struct { Kind string; Metadata Metadata }` -/
structure Manifest where
  Kind : String
  Metadata : Metadata
deriving DecidableEq

/-! ## The Go standard library functions that `Filename` calls -/

/-- Go `unicode.ToLower(r)`: an ASCII letter is mapped in place
(`if 'A' <= r && r <= 'Z' { r += 'a' - 'A' }`), and every other code point
through the case tables of Go's `unicode` package,
`unicode.To(unicode.LowerCase, r)`. The tables are data of the standard
library; `lowerCase` stands for their lower-case mapping. -/
def unicode.ToLower (lowerCase : Char → Char) (r : Char) : Char :=
  if r.toNat ≤ 0x7F then
    if 'A'.toNat ≤ r.toNat ∧ r.toNat ≤ 'Z'.toNat then Char.ofNat (r.toNat + 32) else r
  else lowerCase r

/-- Go `strings.ToLower(s)`: `s` with every code point mapped by
`unicode.ToLower` (Go's fast path for ASCII strings gives the same). -/
def strings.ToLower (lowerCase : Char → Char) (s : String) : String :=
  ⟨s.data.map (unicode.ToLower lowerCase)⟩

/-- The backtracking of `path.Clean` at a `..` element:
`out.w--; for out.w > dotdot && out.index(out.w) != '/' { out.w-- }`,
started at `w = out.w - 1`; the result is the new `out.w`. -/
def path.backtrack (out : List Char) (dotdot : Nat) : Nat → Nat
  | 0 => 0
  | w + 1 => if dotdot < w + 1 ∧ out.getD (w + 1) '/' ≠ '/' then path.backtrack out dotdot w else w + 1

/-- The main loop of `path.Clean` (`for r < n { switch { ... } }`): `rest` is
`path[r:]`, `out` the bytes written so far (`out.w = out.length`). Every
iteration consumes at least one byte of `rest`, which the first argument
counts down. -/
def path.cleanLoop (rooted : Bool) : Nat → List Char → List Char → Nat → List Char
  | 0, _, out, _ => out
  | _ + 1, [], out, _ => out
  | fuel + 1, c :: rest, out, dotdot =>
    if c = '/' then
      -- empty path element
      path.cleanLoop rooted fuel rest out dotdot
    else if c = '.' ∧ (rest = [] ∨ rest.head? = some '/') then
      -- . element
      path.cleanLoop rooted fuel rest out dotdot
    else if c = '.' ∧ rest.head? = some '.' ∧ (rest.tail = [] ∨ rest.tail.head? = some '/') then
      -- .. element: remove to last /
      if dotdot < out.length then
        path.cleanLoop rooted fuel rest.tail (out.take (path.backtrack out dotdot (out.length - 1))) dotdot
      else if rooted = false then
        let out2 := (if 0 < out.length then out ++ ['/'] else out) ++ ['.', '.']
        path.cleanLoop rooted fuel rest.tail out2 out2.length
      else
        path.cleanLoop rooted fuel rest.tail out dotdot
    else
      -- real path element: add slash if needed, copy element
      let out1 := if (rooted = true ∧ out.length ≠ 1) ∨ (rooted = false ∧ out.length ≠ 0) then out ++ ['/'] else out
      path.cleanLoop rooted fuel ((c :: rest).dropWhile (· ≠ '/'))
        (out1 ++ (c :: rest).takeWhile (· ≠ '/')) dotdot

/-- Go `path.Clean` on the characters of the path. -/
def path.cleanChars (p : List Char) : List Char :=
  match p with
  | [] => ['.']
  | c :: rest =>
    let out :=
      if c = '/' then path.cleanLoop true (rest.length + 1) rest ['/'] 1
      else path.cleanLoop false (rest.length + 2) (c :: rest) [] 0
    if out.length = 0 then ['.'] else out

/-- Go `path.Clean(path string) string` of the Go standard library: the shortest
path name equivalent to `path` by purely lexical processing. -/
def path.Clean (p : String) : String :=
  ⟨path.cleanChars p.data⟩

/-- The buffer that `path.Join` builds: the non-empty elements (and every
element after the first one written), separated by slashes. -/
def path.joinBuf : List String → List Char → List Char
  | [], buf => buf
  | e :: es, buf =>
    if 0 < buf.length ∨ e ≠ "" then
      path.joinBuf es ((if 0 < buf.length then buf ++ ['/'] else buf) ++ e.data)
    else path.joinBuf es buf

/-- Go `path.Join(elem ...string) string` of the Go standard library. -/
def path.Join (elem : List String) : String :=
  if (elem.map String.length).sum = 0 then ""
  else path.Clean ⟨path.joinBuf elem []⟩

/-! ## `Manifest.Filename` -/

/-- Go: `func (m Manifest) Filename(folder string) string` (process.go:21-28);
`lowerCase` is the lower-case mapping of Go's Unicode tables, which
`strings.ToLower` consults. -/
def Manifest.Filename (lowerCase : Char → Char) (m : Manifest) (folder : String) : String :=
  let name := strings.ToLower lowerCase m.Kind ++ "--" ++ m.Metadata.Name ++ ".yaml"
  if folder ≠ "" then path.Join [folder, name] else name

/-! ## The collaborators of `process` and `Process` -/

/-- Go `unicode.IsSpace` of the Go standard library: the code points with the
Unicode White_Space property. -/
def unicode.IsSpace (c : Char) : Bool :=
  let r := c.toNat
  r == 0x09 || r == 0x0A || r == 0x0B || r == 0x0C || r == 0x0D || r == 0x20
    || r == 0x85 || r == 0xA0 || r == 0x1680 || (0x2000 ≤ r && r ≤ 0x200A)
    || r == 0x2028 || r == 0x2029 || r == 0x202F || r == 0x205F || r == 0x3000

/-- Go `bytes.TrimSpace`: the slice without its leading and trailing white space. -/
def bytes.TrimSpace (s : String) : String :=
  ⟨((s.data.dropWhile unicode.IsSpace).reverse.dropWhile unicode.IsSpace).reverse⟩

/-- An `io.ReadCloser` as `process` uses it: what `ioutil.ReadAll` gives for
it. (`Close` has no effect that `process.go` observes.) -/
structure ReadCloser where
  ReadAll : Except GoError String

/-- The interface `ManifestSource`: `Names()` and `Get(name)`. -/
structure ManifestSource where
  Names : Except GoError (List String)
  Get : String → Except GoError ReadCloser

/-- A parsed `*template.Template`: what `tpl.Execute(&buf, nil)` writes to the
buffer, or the error of the execution. -/
structure Template where
  Execute : Except GoError String

/-- The two library calls of `process` whose algorithms are outside the
repository: `template.New(name).Parse(text)` of `text/template` and
`yaml.Unmarshal(data, &manifest)` of `gopkg.in/yaml.v1` into a zero
`Manifest`. -/
structure Library where
  Parse : String → String → Except GoError Template
  Unmarshal : String → Except GoError Manifest

/-- The interface `Target` over a storage of type `σ`: each method returns
its `error` and the storage it leaves. -/
structure Target (σ : Type) where
  Prepare : σ → Option GoError × σ
  Apply : Manifest → String → σ → Option GoError × σ
  Cleanup : List Manifest → σ → Option GoError × σ

/-- A call of a method of the target. -/
inductive Call where
  | Prepare
  | Apply (m : Manifest) (data : String)
  | Cleanup (seen : List Manifest)
deriving DecidableEq

/-- The target's storage together with the calls made on the target so far,
oldest first. -/
structure World (σ : Type) where
  state : σ
  calls : List Call

/-- Modelled from the spec: the declarations of `Options`, its mode type and
the constant `WriteToFolder` are not in `process.go`. §6: "a mode selector
(currently one mode: write-to-folder) plus mode-specific parameters (output
folder path, required and non-empty for that mode)". A Go mode selector is
a named integer type, so it has values other than its declared constants. -/
structure Options where
  Mode : Nat
  OutputFolder : String
deriving DecidableEq

/-- Modelled from the spec: the one declared mode, write-to-folder (§6). -/
def WriteToFolder : Nat := 0

/-! ## `process`: the unit of work for one name -/

/-- Go: `func process(src ManifestSource, name string, target Target) (*Manifest, error)`
(process.go:88-135). The result pairs the two return values with the world
the call leaves. `target` is not nil here: `Process` calls `process` only after
`target.Prepare()` has returned. -/
def process {σ : Type} (lib : Library) (src : ManifestSource) (name : String)
    (target : Target σ) (w : World σ) : (Option Manifest × Option GoError) × World σ :=
  match src.Get name with
  | .error err => ((none, some err), w)
  | .ok m =>
    -- Read and parse template
    match m.ReadAll with
    | .error err => ((none, some err), w)
    | .ok text =>
      match lib.Parse name text with
      | .error err => ((none, some err), w)
      | .ok tpl =>
        -- Execute it
        match tpl.Execute with
        | .error err => ((none, some err), w)
        | .ok buf =>
          let data := bytes.TrimSpace buf
          if data = "" then
            -- Nothing here
            ((none, none), w)
          else
            -- Determine object type
            match lib.Unmarshal data with
            | .error err => ((none, some err), w)
            | .ok manifest =>
              if manifest.Kind = "" ∨ manifest.Metadata.Name = "" then
                ((none, some ⟨name ++ ": missing type data, not a valid Kubernetes manifest?"⟩), w)
              else
                let r := target.Apply manifest data w.state
                let w1 : World σ := ⟨r.2, w.calls ++ [Call.Apply manifest data]⟩
                match r.1 with
                | some err => ((none, some err), w1)
                | none => ((some manifest, none), w1)

/-! ## `Process`: the goroutines and the variables they share -/

/-- Where one goroutine of `Process` stands (process.go:63-72). The values
`m` and `e` that `process` returned stay in the goroutine's frame. -/
inductive Goroutine where
  /-- started, `process(src, n, target)` not yet called -/
  | start (n : String)
  /-- after `process` has returned; next `if e != nil`, and with it the store
  of the first word of `err = e` -/
  | called (m : Option Manifest) (e : Option GoError)
  /-- after the type word of `err = e` is stored; next the store of its data word -/
  | storing (m : Option Manifest) (e : GoError)
  /-- next `if m != nil`, and with it the read of `seen` for `append` -/
  | checked (m : Option Manifest) (e : Option GoError)
  /-- after `append(seen, *m)` has read `seen` as `old`; next the store to `seen` -/
  | loaded (m : Manifest) (e : Option GoError) (old : List Manifest)
  /-- the function has returned and `wg.Done()` has run -/
  | finished (m : Option Manifest) (e : Option GoError)
deriving DecidableEq

/-- The variable `err` of `Process` in memory: an interface value is two
words, the type word and the data word. Each word is recorded by the error
value it was copied from; `none` is a nil word. -/
structure ErrWords where
  tab : Option GoError
  data : Option GoError
deriving DecidableEq

/-- The variables of `Process` that its goroutines share, the world, and the
goroutines themselves, one per name, in the order of `names`. -/
structure Shared (σ : Type) where
  world : World σ
  err : ErrWords
  seen : List Manifest
  units : List Goroutine

/-- One step of goroutine `i`. Nothing in `process.go` orders the accesses of
two goroutines to `err` and `seen`: the two words of `err = e` are stored in
two steps, the type word first, and the read and the write of
`seen = append(seen, *m)` are two steps. The words of the slice `seen` are
read together and stored together: a run in which they tear is not among the
runs of the model. -/
def stepUnit {σ : Type} (lib : Library) (src : ManifestSource) (target : Target σ)
    (i : Nat) (s : Shared σ) : Shared σ :=
  match s.units[i]? with
  | none => s
  | some (.start n) =>
    let r := process lib src n target s.world
    { s with world := r.2, units := s.units.set i (.called r.1.1 r.1.2) }
  | some (.called m (some e)) =>
    { s with err := { s.err with tab := some e }, units := s.units.set i (.storing m e) }
  | some (.storing m e) =>
    { s with err := { s.err with data := some e }, units := s.units.set i (.checked m (some e)) }
  | some (.called m none) =>
    { s with units := s.units.set i (.checked m none) }
  | some (.checked (some d) e) =>
    { s with units := s.units.set i (.loaded d e s.seen) }
  | some (.checked none e) =>
    { s with units := s.units.set i (.finished none e) }
  | some (.loaded d e old) =>
    { s with seen := old ++ [d], units := s.units.set i (.finished (some d) e) }
  | some (.finished _ _) => s

/-- The goroutines move as the schedule says, one step for each entry. -/
def runSched {σ : Type} (lib : Library) (src : ManifestSource) (target : Target σ)
    (sched : List Nat) (s : Shared σ) : Shared σ :=
  sched.foldl (fun s i => stepUnit lib src target i s) s

/-- Goroutine `i` runs to its end: it has at most five steps. -/
def finishUnit {σ : Type} (lib : Library) (src : ManifestSource) (target : Target σ)
    (i : Nat) (s : Shared σ) : Shared σ :=
  stepUnit lib src target i (stepUnit lib src target i (stepUnit lib src target i
    (stepUnit lib src target i (stepUnit lib src target i s))))

/-- Go `wg.Wait()`: every goroutine that has not finished when the schedule ends
runs to its end, in the order of `names`. -/
def drain {σ : Type} (lib : Library) (src : ManifestSource) (target : Target σ)
    (s : Shared σ) : Shared σ :=
  (List.range s.units.length).foldl (fun s i => finishUnit lib src target i s) s

/-- The shared variables when the goroutines start (process.go:56-61):
`Prepare` has been called and left the storage `st`, `err` is nil, `seen` is
empty, and there is one goroutine for each name. -/
def startShared {σ : Type} (st : σ) (names : List String) : Shared σ :=
  ⟨⟨st, [Call.Prepare]⟩, ⟨none, none⟩, [], names.map Goroutine.start⟩

/-- How a call of `Process` ends. -/
inductive Outcome where
  | returned (err : Option GoError)
  /-- it returned an interface value put together from two stores: the type
  word of the error `tab` and the data word of another error (or a nil data
  word) -/
  | torn (tab : GoError) (data : Option GoError)
  /-- a run-time panic: a method called on a nil interface value -/
  | panicked
deriving DecidableEq

/-- One call of `Process`: how it ended, the world it left, and the
goroutines it had started. -/
structure Run (σ : Type) where
  outcome : Outcome
  world : World σ
  units : List Goroutine

/-- Go: `func Process(src ManifestSource, opts Options) error` (process.go:34-86).
`newFolderTarget` is `NewFolderTarget`, `st` the storage the call finds, and
`sched` the order in which the goroutines move; a schedule of any length
describes a full run, since `wg.Wait()` lets the goroutines finish. -/
def Process {σ : Type} (lib : Library) (newFolderTarget : String → Target σ)
    (src : ManifestSource) (opts : Options) (sched : List Nat) (st : σ) : Run σ :=
  match src.Names with
  | .error err => ⟨.returned (some err), ⟨st, []⟩, []⟩
  | .ok names =>
    if opts.Mode = WriteToFolder ∧ opts.OutputFolder = "" then
      ⟨.returned (some ⟨"No output folder specified"⟩), ⟨st, []⟩, []⟩
    else
      -- var target Target: nil unless the switch assigns it
      let target : Option (Target σ) :=
        if opts.Mode = WriteToFolder then some (newFolderTarget opts.OutputFolder) else none
      match target with
      | none => ⟨.panicked, ⟨st, []⟩, []⟩
      | some t =>
        let p := t.Prepare st
        match p.1 with
        | some err => ⟨.returned (some err), ⟨p.2, [Call.Prepare]⟩, []⟩
        | none =>
          -- Apply all resources in parallel
          let s := drain lib src t (runSched lib src t sched (startShared p.2 names))
          -- `err != nil` looks at the type word
          match s.err.tab with
          | some err =>
            ⟨if s.err.data = some err then .returned (some err) else .torn err s.err.data,
              s.world, s.units⟩
          | none =>
            let c := t.Cleanup s.seen s.world.state
            ⟨.returned c.1, ⟨c.2, s.world.calls ++ [Call.Cleanup s.seen]⟩, s.units⟩

/-! ## The folder target and the canonical identifier, as the specification words them -/

/-- The canonical identifier of a descriptor, in the words of the
specification (§3): `lowercase(kind) + "--" + name`. -/
def canonicalIdentifier (lowerCase : Char → Char) (m : Manifest) : String :=
  strings.ToLower lowerCase m.Kind ++ "--" ++ m.Metadata.Name

/-- Modelled from the spec: `NewFolderTarget` is not in `process.go`. §6:
the folder-backed target "persists each artifact at
`<outputFolder>/<lowercase(kind)>--<name>.yaml`"; "`Cleanup` lists the
folder's existing matching files and deletes any whose derived identifier is
absent from the seen set". The storage is the list of the folder's files,
each with its path and its content. -/
def NewFolderTarget (lowerCase : Char → Char) (folder : String) :
    Target (List (String × String)) where
  Prepare files := (none, files)
  Apply m data files :=
    (none, files.filter (fun f => f.1 ≠ m.Filename lowerCase folder) ++
      [(m.Filename lowerCase folder, data)])
  Cleanup seen files :=
    (none, files.filter (fun f => f.1 ∈ seen.map (fun m => m.Filename lowerCase folder)))

/-! ## Concrete collaborators for the examples -/

/-- The lower-case mapping of Go's Unicode tables on the Latin-1 supplement:
`À`..`Ö` and `Ø`..`Þ` map to the letter 32 above, and no other code point of
Latin-1 changes. It stands in for the tables in the examples, whose kinds are
written in ASCII and Latin-1. -/
def latin1Lower (r : Char) : Char :=
  if (0xC0 ≤ r.toNat ∧ r.toNat ≤ 0xD6) ∨ (0xD8 ≤ r.toNat ∧ r.toNat ≤ 0xDE) then
    Char.ofNat (r.toNat + 32)
  else r

/-- Go `strings.HasPrefix` on characters. -/
def strings.startsWith : List Char → List Char → Bool
  | _, [] => true
  | [], _ :: _ => false
  | c :: s, d :: t => c == d && strings.startsWith s t

/-- Go `strings.Contains` on characters: `sub` occurs somewhere in `s`. -/
def strings.containsChars : List Char → List Char → Bool
  | [], sub => sub.isEmpty
  | c :: s, sub => strings.startsWith (c :: s) sub || strings.containsChars s sub

/-- Go `strings.Contains(s, substr)`. -/
def strings.Contains (s substr : String) : Bool :=
  strings.containsChars s.data substr.data

/-- The folder target of the examples. -/
def demoFolderTarget : String → Target (List (String × String)) :=
  NewFolderTarget latin1Lower

/-- A library for the examples. Its templates have no actions, so executing
one writes its text. Its decoder knows the well-formed documents the examples
use and decodes them as `gopkg.in/yaml.v1` does; any other document it takes
for `a: b: c`, which is not well-formed, and reports a syntax error. -/
def demoLibrary : Library where
  Parse _ text := .ok ⟨.ok text⟩
  Unmarshal data :=
    if data = "kind: Job\nmetadata:\n  name: a" then .ok ⟨"Job", ⟨"a"⟩⟩
    else if data = "kind: Job\nmetadata:\n  name: b" then .ok ⟨"Job", ⟨"b"⟩⟩
    else if data = "kind: Job" then .ok ⟨"Job", ⟨""⟩⟩
    else .error ⟨"YAML error: mapping values are not allowed in this context"⟩

/-- A source for the examples: it has the given names, and a stream for each
name of `docs`. -/
def demoSource (names : List String) (docs : List (String × String)) : ManifestSource where
  Names := .ok names
  Get n :=
    match docs.lookup n with
    | some text => .ok ⟨.ok text⟩
    | none => .error ⟨"open " ++ n ++ ": no such file or directory"⟩

/-- The template texts of the examples: `a` and `b` are jobs, `x` has no
`metadata.name`, `web` is not well-formed YAML, and `blank` is white space. -/
def demoDocs : List (String × String) :=
  [("a", "kind: Job\nmetadata:\n  name: a\n"),
   ("b", "kind: Job\nmetadata:\n  name: b\n"),
   ("x", "kind: Job\n"),
   ("web", "a: b: c\n"),
   ("blank", " \n\t\n")]

/-! ## What a goroutine has got from `process` -/

/-- The pair `(m, e)` that `process` returned to the goroutine, once it has. -/
def Goroutine.result : Goroutine → Option (Option Manifest × Option GoError)
  | .start _ => none
  | .called m e => some (m, e)
  | .storing m e => some (m, some e)
  | .checked m e => some (m, e)
  | .loaded d e _ => some (some d, e)
  | .finished m e => some (m, e)

/-- The goroutine is past the store of the type word of `err = e`. -/
def Goroutine.pastErr : Goroutine → Bool
  | .start _ => false
  | .called _ _ => false
  | _ => true

/-- The goroutine is past `if e != nil { err = e }`. -/
def Goroutine.pastData : Goroutine → Bool
  | .start _ => false
  | .called _ _ => false
  | .storing _ _ => false
  | _ => true

/-- The goroutine has returned. -/
def Goroutine.isFinished : Goroutine → Bool
  | .finished _ _ => true
  | _ => false

/-- The states of a goroutine whose `process` returned `(nil, nil)` for the
name `n`. -/
def Goroutine.skips (n : String) (g : Goroutine) : Prop :=
  g = .start n ∨ g = .called none none ∨ g = .checked none none ∨ g = .finished none none

/-- What holds of the shared variables at every moment of the goroutines' run
over `names`: each goroutine holds what `process` returned for its name; each
word of `err` comes from the error of one of them; a goroutine that got an
error and is past a store to `err` has left that word set; and `Cleanup` has
not been called. -/
structure Inv {σ : Type} (lib : Library) (src : ManifestSource) (target : Target σ)
    (names : List String) (s : Shared σ) : Prop where
  length : s.units.length = names.length
  origin : ∀ (j : Nat) (g : Goroutine), s.units[j]? = some g → ∃ n, names[j]? = some n ∧
    (g = .start n ∨ ∃ w, g.result = some (process lib src n target w).1)
  err_from : ∀ x, s.err.tab = some x → ∃ (j : Nat) (g : Goroutine) (m : Option Manifest),
    s.units[j]? = some g ∧ g.result = some (m, some x)
  data_from : ∀ x, s.err.data = some x → ∃ (j : Nat) (g : Goroutine) (m : Option Manifest),
    s.units[j]? = some g ∧ g.result = some (m, some x)
  err_kept : ∀ (j : Nat) (g : Goroutine) (m : Option Manifest) (x : GoError),
    s.units[j]? = some g → g.pastErr = true → g.result = some (m, some x) → s.err.tab ≠ none
  data_kept : ∀ (j : Nat) (g : Goroutine) (m : Option Manifest) (x : GoError),
    s.units[j]? = some g → g.pastData = true → g.result = some (m, some x) → s.err.data ≠ none
  no_cleanup : ∀ seen, Call.Cleanup seen ∉ s.world.calls

/-- The number of steps the goroutine still has to take, at most. -/
def Goroutine.remaining : Goroutine → Nat
  | .start _ => 5
  | .called _ _ => 4
  | .storing _ _ => 3
  | .checked _ _ => 2
  | .loaded _ _ _ => 1
  | .finished _ _ => 0

/-- The contract of §6 for a target, in the words of the specification:
`Apply` "persists/overwrites the artifact identified by the descriptor's
canonical identifier"; `Cleanup` "must remove any previously-persisted
artifact whose canonical identifier is not present in `seenDescriptors`, and
must leave all present ones untouched". `held s` lists the canonical
identifiers of the artifacts that the storage `s` holds. -/
structure ObeysContract {σ : Type} (lowerCase : Char → Char) (t : Target σ)
    (held : σ → List String) : Prop where
  apply : ∀ m data s, (t.Apply m data s).1 = none →
    ∀ x, x ∈ held (t.Apply m data s).2 ↔ x = canonicalIdentifier lowerCase m ∨ x ∈ held s
  cleanup : ∀ seen s, (t.Cleanup seen s).1 = none →
    ∀ x, x ∈ held (t.Cleanup seen s).2 ↔
      x ∈ held s ∧ x ∈ seen.map (canonicalIdentifier lowerCase)

/-- The descriptor that `process` returned to the goroutine, if it returned one. -/
def Goroutine.descriptor (g : Goroutine) : Option Manifest :=
  match g.result with
  | some (some d, _) => some d
  | _ => none

/-- A target that keeps, for each artifact, its canonical identifier: the
simplest target that obeys the contract of §6. -/
def memoryTarget (lowerCase : Char → Char) : Target (List String) where
  Prepare ids := (none, ids)
  Apply m _ ids := (none, canonicalIdentifier lowerCase m :: ids)
  Cleanup seen ids :=
    (none, ids.filter (fun x => x ∈ seen.map (canonicalIdentifier lowerCase)))

/-! ## A run without one of its goroutines -/

/-- The index of goroutine `j` among the goroutines without goroutine `i`. -/
def withoutIndex (i j : Nat) : Nat :=
  if i < j then j - 1 else j

/-- The schedule for the goroutines without goroutine `i`: its steps are left
out, and the goroutines after it are counted one lower. -/
def dropUnit (i : Nat) (sched : List Nat) : List Nat :=
  sched.filterMap (fun j => if j = i then none else some (withoutIndex i j))

/-- What one step does to the goroutine that takes it and to the shared
variables. -/
def unitStep {σ : Type} (lib : Library) (src : ManifestSource) (target : Target σ)
    (g : Goroutine) (w : World σ) (err : ErrWords) (seen : List Manifest) :
    Goroutine × World σ × ErrWords × List Manifest :=
  match g with
  | .start n =>
    (.called (process lib src n target w).1.1 (process lib src n target w).1.2,
      (process lib src n target w).2, err, seen)
  | .called m (some e) => (.storing m e, w, ⟨some e, err.data⟩, seen)
  | .called m none => (.checked m none, w, err, seen)
  | .storing m e => (.checked m (some e), w, ⟨err.tab, some e⟩, seen)
  | .checked (some d) e => (.loaded d e seen, w, err, seen)
  | .checked none e => (.finished none e, w, err, seen)
  | .loaded d e old => (.finished (some d) e, w, err, old ++ [d])
  | .finished m e => (.finished m e, w, err, seen)

/-- The shared variables of a run and of the same run without goroutine `i`,
which is a goroutine whose `process` returns `(nil, nil)`. -/
structure Without {σ : Type} (i : Nat) (n : String) (s s' : Shared σ) : Prop where
  world : s'.world = s.world
  err : s'.err = s.err
  seen : s'.seen = s.seen
  units : s'.units = s.units.eraseIdx i
  unit : ∃ g, s.units[i]? = some g ∧ g.skips n

/-! ## Theorems on `path.Clean` and `Filename` -/

theorem cleanLoop_nil (rooted : Bool) (fuel : Nat) (out : List Char) (dd : Nat) :
    path.cleanLoop rooted fuel [] out dd = out := by
  cases fuel <;> rfl

theorem cleanLoop_cons (rooted : Bool) (fuel : Nat) (c : Char) (rest out : List Char) (dd : Nat) :
    path.cleanLoop rooted (fuel + 1) (c :: rest) out dd =
      if c = '/' then path.cleanLoop rooted fuel rest out dd
      else if c = '.' ∧ (rest = [] ∨ rest.head? = some '/') then
        path.cleanLoop rooted fuel rest out dd
      else if c = '.' ∧ rest.head? = some '.' ∧ (rest.tail = [] ∨ rest.tail.head? = some '/') then
        if dd < out.length then
          path.cleanLoop rooted fuel rest.tail
            (out.take (path.backtrack out dd (out.length - 1))) dd
        else if rooted = false then
          path.cleanLoop rooted fuel rest.tail
            ((if 0 < out.length then out ++ ['/'] else out) ++ ['.', '.'])
            ((if 0 < out.length then out ++ ['/'] else out) ++ ['.', '.']).length
        else path.cleanLoop rooted fuel rest.tail out dd
      else
        path.cleanLoop rooted fuel ((c :: rest).dropWhile (· ≠ '/'))
          ((if (rooted = true ∧ out.length ≠ 1) ∨ (rooted = false ∧ out.length ≠ 0)
            then out ++ ['/'] else out) ++ (c :: rest).takeWhile (· ≠ '/')) dd := by
  rfl

theorem takeWhile_append_slash (l e : List Char) :
    (l ++ '/' :: e).takeWhile (· ≠ '/') = l.takeWhile (· ≠ '/') := by
  induction l with
  | nil => simp
  | cons a l ih =>
    rw [List.cons_append, List.takeWhile_cons, List.takeWhile_cons, ih]

theorem dropWhile_append_slash (l e : List Char) :
    (l ++ '/' :: e).dropWhile (· ≠ '/') = l.dropWhile (· ≠ '/') ++ '/' :: e := by
  induction l with
  | nil => simp
  | cons a l ih =>
    rw [List.cons_append, List.dropWhile_cons, List.dropWhile_cons, ih]
    split <;> rfl

theorem dropWhile_length_le (c : Char) (r : List Char) (h : c ≠ '/') :
    ((c :: r).dropWhile (· ≠ '/')).length ≤ r.length := by
  rw [List.dropWhile_cons]
  simp only [ne_eq, h, not_false_eq_true, decide_True, if_true]
  exact (List.dropWhile_sublist _).length_le

theorem cleanLoop_fuel (rooted : Bool) (f1 : Nat) :
    ∀ (f2 : Nat) (rest out : List Char) (dd : Nat), rest.length ≤ f1 → rest.length ≤ f2 →
      path.cleanLoop rooted f1 rest out dd = path.cleanLoop rooted f2 rest out dd := by
  induction f1 with
  | zero =>
    intro f2 rest out dd h1 _
    have : rest = [] := List.length_eq_zero.mp (by omega)
    subst this
    simp [cleanLoop_nil]
  | succ f1 ih =>
    intro f2 rest out dd h1 h2
    cases rest with
    | nil => simp [cleanLoop_nil]
    | cons c r =>
      cases f2 with
      | zero => simp at h2
      | succ f2 =>
        have hr : r.length ≤ f1 := by simpa using h1
        have hr2 : r.length ≤ f2 := by simpa using h2
        have ht : r.tail.length ≤ r.length := by simp
        simp only [path.cleanLoop]
        split_ifs with hc
        · exact ih _ _ _ _ hr hr2
        · exact ih _ _ _ _ hr hr2
        · exact ih _ _ _ _ (by omega) (by omega)
        · exact ih _ _ _ _ (by omega) (by omega)
        · exact ih _ _ _ _ (by omega) (by omega)
        · exact ih _ _ _ _ (by omega) (by omega)
        · have := dropWhile_length_le c r hc
          exact ih _ _ _ _ (by omega) (by omega)
        · have := dropWhile_length_le c r hc
          exact ih _ _ _ _ (by omega) (by omega)

theorem cleanLoop_element (rooted : Bool) (fuel : Nat) (e out : List Char) (dd : Nat)
    (hs : '/' ∉ e) (hl : 3 ≤ e.length) :
    path.cleanLoop rooted (fuel + 1) e out dd =
      (if (rooted = true ∧ out.length ≠ 1) ∨ (rooted = false ∧ out.length ≠ 0)
        then out ++ ['/'] else out) ++ e := by
  match e, hl with
  | c :: c2 :: c3 :: r, _ =>
    have hc : c ≠ '/' := fun h => hs (by simp [h])
    have hc2 : c2 ≠ '/' := fun h => hs (by simp [h])
    have hc3 : c3 ≠ '/' := fun h => hs (by simp [h])
    have h2 : ¬(c = '.' ∧ (c2 :: c3 :: r = [] ∨ (c2 :: c3 :: r).head? = some '/')) := by
      rintro ⟨_, h | h⟩
      · cases h
      · exact hc2 (Option.some.inj h)
    have h3 : ¬(c = '.' ∧ (c2 :: c3 :: r).head? = some '.' ∧
        ((c2 :: c3 :: r).tail = [] ∨ (c2 :: c3 :: r).tail.head? = some '/')) := by
      rintro ⟨_, _, h | h⟩
      · cases h
      · exact hc3 (Option.some.inj h)
    have htake : (c :: c2 :: c3 :: r).takeWhile (· ≠ '/') = c :: c2 :: c3 :: r := by
      rw [List.takeWhile_eq_self_iff]
      intro x hx
      exact decide_eq_true (fun h => hs (h ▸ hx))
    have hdrop : (c :: c2 :: c3 :: r).dropWhile (· ≠ '/') = [] := by
      rw [List.dropWhile_eq_nil_iff]
      intro x hx
      exact decide_eq_true (fun h => hs (h ▸ hx))
    rw [cleanLoop_cons, if_neg hc, if_neg h2, if_neg h3, htake, hdrop, cleanLoop_nil]

theorem head?_append_slash (r e : List Char) :
    (r ++ '/' :: e = [] ∨ (r ++ '/' :: e).head? = some '/') ↔ (r = [] ∨ r.head? = some '/') := by
  cases r with
  | nil => simp
  | cons a r => simp

theorem dotdot_append_slash (r e : List Char) :
    ((r ++ '/' :: e).head? = some '.' ∧
      ((r ++ '/' :: e).tail = [] ∨ (r ++ '/' :: e).tail.head? = some '/')) ↔
    (r.head? = some '.' ∧ (r.tail = [] ∨ r.tail.head? = some '/')) := by
  cases r with
  | nil => simp
  | cons a r =>
    have := head?_append_slash r e
    simpa using fun _ => this

theorem tail_append_slash (r e : List Char) (h : r.head? = some '.') :
    (r ++ '/' :: e).tail = r.tail ++ '/' :: e := by
  cases r with
  | nil => cases h
  | cons a r => rfl

/-- The loop of `path.Clean` on a path followed by a slash and one more element
of three bytes or more: it appends the element, after a slash where one is
needed, to what it writes for the path alone. -/
theorem cleanLoop_append (rooted : Bool) (e : List Char) (hs : '/' ∉ e) (hl : 3 ≤ e.length)
    (fuel : Nat) :
    ∀ (p out : List Char) (dd : Nat), p.length ≤ fuel →
      path.cleanLoop rooted (fuel + e.length + 1) (p ++ '/' :: e) out dd =
        (if (rooted = true ∧ (path.cleanLoop rooted fuel p out dd).length ≠ 1) ∨
            (rooted = false ∧ (path.cleanLoop rooted fuel p out dd).length ≠ 0)
          then path.cleanLoop rooted fuel p out dd ++ ['/']
          else path.cleanLoop rooted fuel p out dd) ++ e := by
  induction fuel with
  | zero =>
    intro p out dd hp
    have : p = [] := List.length_eq_zero.mp (by omega)
    subst this
    have hfuel : 0 + e.length + 1 = (e.length - 1 + 1) + 1 := by omega
    rw [List.nil_append, hfuel, cleanLoop_cons, if_pos rfl,
      cleanLoop_element rooted _ e out dd hs hl, cleanLoop_nil]
  | succ f ih =>
    intro p out dd hp
    cases p with
    | nil =>
      have hfuel : f + 1 + e.length + 1 = (f + e.length + 1) + 1 := by omega
      rw [List.nil_append, hfuel, cleanLoop_cons, if_pos rfl,
        cleanLoop_element rooted _ e out dd hs hl, cleanLoop_nil]
    | cons c r =>
      have hr : r.length ≤ f := by simpa using hp
      have hfuel : f + 1 + e.length + 1 = (f + e.length + 1) + 1 := by omega
      rw [List.cons_append, hfuel, cleanLoop_cons, cleanLoop_cons]
      by_cases hc : c = '/'
      · rw [if_pos hc, if_pos hc]
        exact ih r out dd hr
      · rw [if_neg hc, if_neg hc]
        by_cases h2 : c = '.' ∧ (r = [] ∨ r.head? = some '/')
        · rw [if_pos h2, if_pos ⟨h2.1, (head?_append_slash r e).mpr h2.2⟩]
          exact ih r out dd hr
        · rw [if_neg h2, if_neg (fun h => h2 ⟨h.1, (head?_append_slash r e).mp h.2⟩)]
          by_cases h3 : c = '.' ∧ r.head? = some '.' ∧ (r.tail = [] ∨ r.tail.head? = some '/')
          · rw [if_pos h3, if_pos ⟨h3.1, (dotdot_append_slash r e).mpr h3.2⟩,
              tail_append_slash r e h3.2.1]
            have ht : r.tail.length ≤ f := by
              have : r.tail.length ≤ r.length := by simp
              omega
            by_cases hlt : dd < out.length
            · rw [if_pos hlt, if_pos hlt]
              exact ih _ _ _ ht
            · rw [if_neg hlt, if_neg hlt]
              by_cases hroot : rooted = false
              · rw [if_pos hroot, if_pos hroot]
                exact ih _ _ _ ht
              · rw [if_neg hroot, if_neg hroot]
                exact ih _ _ _ ht
          · rw [if_neg h3, if_neg (fun h => h3 ⟨h.1, (dotdot_append_slash r e).mp h.2⟩)]
            have hd := dropWhile_length_le c r hc
            rw [← List.cons_append, takeWhile_append_slash, dropWhile_append_slash]
            exact ih _ _ _ (by omega)

theorem cleanChars_append (f e : List Char) (hclean : path.cleanChars f = f)
    (hdot : f ≠ ['.']) (hroot : f ≠ ['/']) (hs : '/' ∉ e) (hl : 3 ≤ e.length) :
    path.cleanChars (f ++ '/' :: e) = f ++ '/' :: e := by
  cases f with
  | nil => cases hclean
  | cons c rest =>
    by_cases hc : c = '/'
    · subst hc
      have hrest : rest ≠ [] := fun h => hroot (by rw [h])
      have hO : path.cleanLoop true (rest.length + 1) rest ['/'] 1 = '/' :: rest := by
        simp only [path.cleanChars, if_true] at hclean
        split at hclean
        · cases hclean
        · exact hclean
      have hfuel : path.cleanLoop true ((rest ++ '/' :: e).length + 1) (rest ++ '/' :: e) ['/'] 1
          = path.cleanLoop true (rest.length + 1 + e.length + 1) (rest ++ '/' :: e) ['/'] 1 :=
        cleanLoop_fuel true _ _ _ _ _ (by simp) (by simp; omega)
      have hlen : ¬ (rest.length + 1 = 1) := by
        have := List.length_pos.mpr hrest
        omega
      simp only [path.cleanChars, List.cons_append, if_true]
      rw [hfuel, cleanLoop_append true e hs hl (rest.length + 1) rest ['/'] 1 (by omega), hO]
      simp [hlen]
    · have hO : path.cleanLoop false (rest.length + 2) (c :: rest) [] 0 = c :: rest := by
        simp only [path.cleanChars, if_neg hc] at hclean
        split at hclean
        · exact absurd hclean.symm hdot
        · exact hclean
      have hfuel : path.cleanLoop false ((rest ++ '/' :: e).length + 2)
          (c :: (rest ++ '/' :: e)) [] 0
          = path.cleanLoop false (rest.length + 2 + e.length + 1) ((c :: rest) ++ '/' :: e) [] 0 :=
        cleanLoop_fuel false _ _ _ _ _ (by simp) (by simp; omega)
      simp only [path.cleanChars, List.cons_append, if_neg hc]
      rw [hfuel, cleanLoop_append false e hs hl (rest.length + 2) (c :: rest) [] 0 (by simp), hO]
      simp

theorem Join_folder_name (folder name : String) (h : folder ≠ "") :
    path.Join [folder, name] = path.Clean (folder ++ "/" ++ name) := by
  have hdata : folder.data ≠ [] := fun hd => h (String.ext hd)
  have hpos : 0 < folder.data.length := List.length_pos.mpr hdata
  have hlen : ¬ (folder.length + name.length = 0) := by
    have : folder.length = folder.data.length := rfl
    omega
  simp only [path.Join, List.map_cons, List.map_nil, List.sum_cons, List.sum_nil, Nat.add_zero,
    if_neg hlen, path.joinBuf, List.length_nil, Nat.lt_irrefl, false_or, ne_eq, h,
    not_false_eq_true, if_true, if_false, List.nil_append, hpos, true_or]
  rfl

/-- On an ASCII string `strings.ToLower` does not consult the Unicode tables. -/
theorem ToLower_ascii (lowerCase lowerCase' : Char → Char) (s : String)
    (h : ∀ c ∈ s.data, c.toNat ≤ 0x7F) :
    strings.ToLower lowerCase s = strings.ToLower lowerCase' s := by
  unfold strings.ToLower
  congr 1
  apply List.map_congr_left
  intro c hc
  simp only [unicode.ToLower, if_pos (h c hc)]

/-- C1 (amended). `m.Filename(f)` is `lowercase(m.Kind) + "--" + m.Metadata.Name +
".yaml"` when `f` is empty; when `f` is not empty it is `path.Join` of `f` and
that name, which is `path.Clean(f + "/" + name)`; and this is exactly
`f + "/" + name` when `f` is a clean path other than `.` and `/` and neither
`lowercase(m.Kind)` nor `m.Metadata.Name` holds a slash. `lowercase` is Go's
`strings.ToLower`, over any lower-case mapping of the Unicode tables. -/
theorem Filename_is_cleaned_join (lowerCase : Char → Char) (m : Manifest) (f : String) :
    (f = "" → m.Filename lowerCase f =
      strings.ToLower lowerCase m.Kind ++ "--" ++ m.Metadata.Name ++ ".yaml") ∧
    (f ≠ "" → m.Filename lowerCase f =
      path.Clean (f ++ "/" ++ strings.ToLower lowerCase m.Kind ++ "--" ++ m.Metadata.Name
        ++ ".yaml")) ∧
    (path.Clean f = f → f ≠ "." → f ≠ "/" → '/' ∉ (strings.ToLower lowerCase m.Kind).data →
      '/' ∉ m.Metadata.Name.data →
      m.Filename lowerCase f =
        f ++ "/" ++ strings.ToLower lowerCase m.Kind ++ "--" ++ m.Metadata.Name ++ ".yaml") := by
  have hjoin : f ≠ "" → m.Filename lowerCase f =
      path.Clean (f ++ "/" ++ strings.ToLower lowerCase m.Kind ++ "--" ++ m.Metadata.Name
        ++ ".yaml") := by
    intro hf
    simp only [Manifest.Filename, ne_eq, hf, not_false_eq_true, if_true]
    rw [Join_folder_name f _ hf]
    simp only [String.append_assoc]
  refine ⟨?_, hjoin, ?_⟩
  · intro hf
    simp [Manifest.Filename, hf]
  · intro hclean hdot hroot hlow hname
    have hf : f ≠ "" := by
      intro hf
      rw [hf] at hclean
      exact absurd hclean (by decide)
    rw [hjoin hf]
    apply String.ext
    have hcl : path.cleanChars f.data = f.data := congrArg String.data hclean
    have hd : f.data ≠ ['.'] := fun h => hdot (String.ext h)
    have hr : f.data ≠ ['/'] := fun h => hroot (String.ext h)
    have hs : '/' ∉ (strings.ToLower lowerCase m.Kind).data ++ "--".data ++ m.Metadata.Name.data
        ++ ".yaml".data := by
      simp only [List.mem_append, not_or]
      exact ⟨⟨⟨hlow, by decide⟩, hname⟩, by decide⟩
    have hl : 3 ≤ ((strings.ToLower lowerCase m.Kind).data ++ "--".data ++ m.Metadata.Name.data
        ++ ".yaml".data).length := by
      simp only [List.length_append]
      have h5 : ".yaml".data.length = 5 := rfl
      rw [h5]
      omega
    have := cleanChars_append f.data _ hcl hd hr hs hl
    simp only [path.Clean, String.data_append] at this ⊢
    have hslash : "/".data = ['/'] := rfl
    simp only [hslash, List.append_assoc, List.singleton_append] at this ⊢
    exact this

/-- C1 (amended), at a rooted folder and a kind with a capital outside ASCII:
the file of the `École` named `a` in `/srv/out` is `/srv/out/école--a.yaml`. -/
theorem Filename_is_cleaned_join_witness :
    Manifest.Filename latin1Lower ⟨"École", ⟨"a"⟩⟩ "/srv/out" =
      "/srv/out" ++ "/" ++ strings.ToLower latin1Lower "École" ++ "--" ++ "a" ++ ".yaml" ∧
    strings.ToLower latin1Lower "École" = "école" :=
  ⟨(Filename_is_cleaned_join latin1Lower ⟨"École", ⟨"a"⟩⟩ "/srv/out").2.2
    (by decide) (by decide) (by decide) (by decide) (by decide), by decide⟩

/-- C1 as stated fails: with the folder `out/` the file of the job `a` is
`out/job--a.yaml`, not `out/` + `/` + `job--a.yaml`. -/
theorem Filename_folder_with_slash :
    Manifest.Filename latin1Lower ⟨"Job", ⟨"a"⟩⟩ "out/" = "out/job--a.yaml" ∧
    Manifest.Filename latin1Lower ⟨"Job", ⟨"a"⟩⟩ "out/" ≠
      "out/" ++ "/" ++ strings.ToLower latin1Lower "Job" ++ "--" ++ "a" ++ ".yaml" := by
  decide

/-! ## Theorems on `process` -/

theorem process_of_rendered {σ : Type} (lib : Library) (src : ManifestSource)
    (target : Target σ) (w : World σ) (n text buf : String) (rc : ReadCloser) (tpl : Template)
    (hget : src.Get n = .ok rc) (hread : rc.ReadAll = .ok text)
    (hparse : lib.Parse n text = .ok tpl) (hexec : tpl.Execute = .ok buf) :
    process lib src n target w =
      if bytes.TrimSpace buf = "" then ((none, none), w)
      else
        match lib.Unmarshal (bytes.TrimSpace buf) with
        | .error err => ((none, some err), w)
        | .ok manifest =>
          if manifest.Kind = "" ∨ manifest.Metadata.Name = "" then
            ((none, some ⟨n ++ ": missing type data, not a valid Kubernetes manifest?"⟩), w)
          else
            match (target.Apply manifest (bytes.TrimSpace buf) w.state).1 with
            | some err => ((none, some err),
                ⟨(target.Apply manifest (bytes.TrimSpace buf) w.state).2,
                  w.calls ++ [Call.Apply manifest (bytes.TrimSpace buf)]⟩)
            | none => ((some manifest, none),
                ⟨(target.Apply manifest (bytes.TrimSpace buf) w.state).2,
                  w.calls ++ [Call.Apply manifest (bytes.TrimSpace buf)]⟩) := by
  simp only [process, hget, hread, hparse, hexec]

/-! ## Theorems on the goroutines -/

section steps

variable {σ : Type} (lib : Library) (src : ManifestSource) (target : Target σ)

theorem stepUnit_length (i : Nat) (s : Shared σ) :
    (stepUnit lib src target i s).units.length = s.units.length := by
  unfold stepUnit
  split <;> simp

theorem stepUnit_other (i j : Nat) (s : Shared σ) (h : i ≠ j) :
    (stepUnit lib src target i s).units[j]? = s.units[j]? := by
  unfold stepUnit
  split <;> simp [List.getElem?_set, h]

theorem stepUnit_out_of_range (i : Nat) (s : Shared σ) (h : s.units[i]? = none) :
    stepUnit lib src target i s = s := by
  unfold stepUnit
  simp [h]

theorem process_calls (n : String) (w : World σ) :
    (process lib src n target w).2.calls = w.calls ∨
      ∃ m d, (process lib src n target w).2.calls = w.calls ++ [Call.Apply m d] := by
  unfold process
  dsimp only
  repeat' split
  all_goals first
    | exact Or.inl rfl
    | exact Or.inr ⟨_, _, rfl⟩

theorem getElem?_set_self_of_some {α : Type} (l : List α) (i : Nat) (a b : α)
    (h : l[i]? = some a) : (l.set i b)[i]? = some b := by
  have hi : i < l.length := by
    rcases Nat.lt_or_ge i l.length with hlt | hge
    · exact hlt
    · rw [List.getElem?_eq_none hge] at h
      cases h
  simp [List.getElem?_set, hi]

theorem stepUnit_start (i : Nat) (s : Shared σ) (n : String)
    (h : s.units[i]? = some (.start n)) :
    stepUnit lib src target i s =
      { s with world := (process lib src n target s.world).2,
               units := s.units.set i (.called (process lib src n target s.world).1.1
                 (process lib src n target s.world).1.2) } := by
  simp only [stepUnit, h]

theorem stepUnit_called_some (i : Nat) (s : Shared σ) (m : Option Manifest) (e : GoError)
    (h : s.units[i]? = some (.called m (some e))) :
    stepUnit lib src target i s =
      { s with err := ⟨some e, s.err.data⟩, units := s.units.set i (.storing m e) } := by
  simp only [stepUnit, h]

theorem stepUnit_storing (i : Nat) (s : Shared σ) (m : Option Manifest) (e : GoError)
    (h : s.units[i]? = some (.storing m e)) :
    stepUnit lib src target i s =
      { s with err := ⟨s.err.tab, some e⟩, units := s.units.set i (.checked m (some e)) } := by
  simp only [stepUnit, h]

theorem stepUnit_called_none (i : Nat) (s : Shared σ) (m : Option Manifest)
    (h : s.units[i]? = some (.called m none)) :
    stepUnit lib src target i s = { s with units := s.units.set i (.checked m none) } := by
  simp only [stepUnit, h]

theorem stepUnit_checked_some (i : Nat) (s : Shared σ) (d : Manifest) (e : Option GoError)
    (h : s.units[i]? = some (.checked (some d) e)) :
    stepUnit lib src target i s = { s with units := s.units.set i (.loaded d e s.seen) } := by
  simp only [stepUnit, h]

theorem stepUnit_checked_none (i : Nat) (s : Shared σ) (e : Option GoError)
    (h : s.units[i]? = some (.checked none e)) :
    stepUnit lib src target i s = { s with units := s.units.set i (.finished none e) } := by
  simp only [stepUnit, h]

theorem stepUnit_loaded (i : Nat) (s : Shared σ) (d : Manifest) (e : Option GoError)
    (old : List Manifest) (h : s.units[i]? = some (.loaded d e old)) :
    stepUnit lib src target i s =
      { s with seen := old ++ [d], units := s.units.set i (.finished (some d) e) } := by
  simp only [stepUnit, h]

theorem stepUnit_finished (i : Nat) (s : Shared σ) (m : Option Manifest) (e : Option GoError)
    (h : s.units[i]? = some (.finished m e)) :
    stepUnit lib src target i s = s := by
  simp only [stepUnit, h]

theorem getElem?_set_cases {α : Type} (l : List α) (i j : Nat) (b g : α)
    (h : (l.set i b)[j]? = some g) : (j = i ∧ g = b) ∨ (j ≠ i ∧ l[j]? = some g) := by
  by_cases hji : j = i
  · subst hji
    left
    refine ⟨rfl, ?_⟩
    rw [List.getElem?_set] at h
    simp only [true_and, if_true] at h
    split at h
    · exact (Option.some.inj h).symm
    · cases h
  · right
    refine ⟨hji, ?_⟩
    rw [List.getElem?_set] at h
    rw [if_neg (fun hij => hji hij.symm)] at h
    exact h

theorem getElem?_set_other {α : Type} (l : List α) (i j : Nat) (b : α) (h : j ≠ i) :
    (l.set i b)[j]? = l[j]? := by
  rw [List.getElem?_set, if_neg (fun hij => h hij.symm)]

/-- Replacing goroutine `i` keeps the invariant when the new state keeps what
the old one held and the new words of `err` are accounted for. -/
theorem Inv_update (names : List String) (s : Shared σ) (i : Nat) (g g' : Goroutine)
    (world' : World σ) (err' : ErrWords) (seen' : List Manifest)
    (h : Inv lib src target names s)
    (hi : s.units[i]? = some g)
    (horigin : ∀ n, (g = .start n ∨ ∃ w, g.result = some (process lib src n target w).1) →
      (g' = .start n ∨ ∃ w, g'.result = some (process lib src n target w).1))
    (hfrom : ∀ x, err'.tab = some x → s.err.tab = some x ∨ ∃ m, g'.result = some (m, some x))
    (hfromD : ∀ x, err'.data = some x →
      s.err.data = some x ∨ ∃ m, g'.result = some (m, some x))
    (hres : ∀ m x, g.result = some (m, some x) → g'.result = some (m, some x))
    (hmono : s.err.tab ≠ none → err'.tab ≠ none)
    (hmonoD : s.err.data ≠ none → err'.data ≠ none)
    (hkept : ∀ m x, g'.pastErr = true → g'.result = some (m, some x) → err'.tab ≠ none)
    (hkeptD : ∀ m x, g'.pastData = true → g'.result = some (m, some x) → err'.data ≠ none)
    (hcalls : ∀ seen, Call.Cleanup seen ∉ world'.calls) :
    Inv lib src target names ⟨world', err', seen', s.units.set i g'⟩ := by
  have hwit : ∀ (x : GoError) (j : Nat) (gj : Goroutine) (m : Option Manifest),
      s.units[j]? = some gj → gj.result = some (m, some x) →
      ∃ (j : Nat) (g : Goroutine) (m : Option Manifest),
        (s.units.set i g')[j]? = some g ∧ g.result = some (m, some x) := by
    intro x j gj m hj hr
    by_cases hji : j = i
    · subst hji
      rw [hi] at hj
      cases hj
      exact ⟨j, g', m, getElem?_set_self_of_some _ _ _ _ hi, hres m x hr⟩
    · exact ⟨j, gj, m, by rw [getElem?_set_other _ _ _ _ hji]; exact hj, hr⟩
  constructor
  · simpa using h.length
  · intro j gj hj
    rcases getElem?_set_cases _ _ _ _ _ hj with ⟨rfl, rfl⟩ | ⟨_, hj'⟩
    · obtain ⟨n, hn, hg⟩ := h.origin j g hi
      exact ⟨n, hn, horigin n hg⟩
    · exact h.origin j gj hj'
  · intro x hx
    rcases hfrom x hx with hs | ⟨m, hm⟩
    · obtain ⟨j, gj, m, hj, hr⟩ := h.err_from x hs
      exact hwit x j gj m hj hr
    · exact ⟨i, g', m, getElem?_set_self_of_some _ _ _ _ hi, hm⟩
  · intro x hx
    rcases hfromD x hx with hs | ⟨m, hm⟩
    · obtain ⟨j, gj, m, hj, hr⟩ := h.data_from x hs
      exact hwit x j gj m hj hr
    · exact ⟨i, g', m, getElem?_set_self_of_some _ _ _ _ hi, hm⟩
  · intro j gj m x hj hp hr
    rcases getElem?_set_cases _ _ _ _ _ hj with ⟨rfl, rfl⟩ | ⟨_, hj'⟩
    · exact hkept m x hp hr
    · exact hmono (h.err_kept j gj m x hj' hp hr)
  · intro j gj m x hj hp hr
    rcases getElem?_set_cases _ _ _ _ _ hj with ⟨rfl, rfl⟩ | ⟨_, hj'⟩
    · exact hkeptD m x hp hr
    · exact hmonoD (h.data_kept j gj m x hj' hp hr)
  · exact hcalls

/-- A step that leaves `err` and the calls alone and keeps what the goroutine
holds keeps the invariant. -/
theorem Inv_update_quiet (names : List String) (s : Shared σ) (i : Nat) (g g' : Goroutine)
    (seen' : List Manifest) (h : Inv lib src target names s) (hi : s.units[i]? = some g)
    (hstarted : ∀ n, g ≠ .start n)
    (hres : g'.result = g.result)
    (hpast : g'.pastErr = true → g.pastErr = true ∨ ∀ m x, g.result ≠ some (m, some x))
    (hpastD : g'.pastData = true → g.pastData = true ∨ ∀ m x, g.result ≠ some (m, some x)) :
    Inv lib src target names ⟨s.world, s.err, seen', s.units.set i g'⟩ := by
  refine Inv_update lib src target names s i g g' _ _ _ h hi ?_ ?_ ?_ ?_ ?_ ?_ ?_ ?_ h.no_cleanup
  · intro n hn
    rcases hn with hn | ⟨w, hw⟩
    · exact absurd hn (hstarted n)
    · exact Or.inr ⟨w, by rw [hres]; exact hw⟩
  · exact fun x hx => Or.inl hx
  · exact fun x hx => Or.inl hx
  · intro m x hr
    rw [hres]; exact hr
  · exact id
  · exact id
  · intro m x hp hr
    rw [hres] at hr
    rcases hpast hp with hp' | hno
    · exact h.err_kept i g m x hi hp' hr
    · exact absurd hr (hno m x)
  · intro m x hp hr
    rw [hres] at hr
    rcases hpastD hp with hp' | hno
    · exact h.data_kept i g m x hi hp' hr
    · exact absurd hr (hno m x)

theorem Inv_stepUnit (names : List String) (s : Shared σ) (i : Nat)
    (h : Inv lib src target names s) :
    Inv lib src target names (stepUnit lib src target i s) := by
  cases hi : s.units[i]? with
  | none => rw [stepUnit_out_of_range _ _ _ _ _ hi]; exact h
  | some g =>
    cases g with
    | start n =>
      rw [stepUnit_start _ _ _ _ _ _ hi]
      refine Inv_update lib src target names s i _ _ _ _ _ h hi ?_ ?_ ?_ ?_ ?_ ?_ ?_ ?_ ?_
      · intro n' hn'
        rcases hn' with hn' | ⟨w, hw⟩
        · cases hn'
          exact Or.inr ⟨s.world, rfl⟩
        · cases hw
      · exact fun x hx => Or.inl hx
      · exact fun x hx => Or.inl hx
      · intro m x hr
        cases hr
      · exact id
      · exact id
      · intro m x hp
        cases hp
      · intro m x hp
        cases hp
      · intro seen hmem
        rcases process_calls lib src target n s.world with hc | ⟨m, d, hc⟩
        · rw [hc] at hmem
          exact h.no_cleanup seen hmem
        · rw [hc] at hmem
          rcases List.mem_append.mp hmem with hmem | hmem
          · exact h.no_cleanup seen hmem
          · simp at hmem
    | called m e =>
      cases e with
      | some e =>
        rw [stepUnit_called_some _ _ _ _ _ _ _ hi]
        refine Inv_update lib src target names s i _ _ _ _ _ h hi ?_ ?_ ?_ ?_ ?_ ?_ ?_ ?_
          h.no_cleanup
        · intro n' hn'
          rcases hn' with hn' | ⟨w, hw⟩
          · cases hn'
          · exact Or.inr ⟨w, hw⟩
        · intro x hx
          cases hx
          exact Or.inr ⟨m, rfl⟩
        · exact fun x hx => Or.inl hx
        · exact fun m' x hr => hr
        · intro _ hc
          cases hc
        · exact id
        · intro _ _ _ _ hc
          cases hc
        · intro _ _ hp
          cases hp
      | none =>
        rw [stepUnit_called_none _ _ _ _ _ _ hi]
        refine Inv_update_quiet lib src target names s i _ _ _ h hi ?_ rfl ?_ ?_
        · intro n hn; cases hn
        · intro _
          exact Or.inr (fun m' x hr => by cases hr)
        · intro _
          exact Or.inr (fun m' x hr => by cases hr)
    | storing m e =>
      rw [stepUnit_storing _ _ _ _ _ _ _ hi]
      refine Inv_update lib src target names s i _ _ _ _ _ h hi ?_ ?_ ?_ ?_ ?_ ?_ ?_ ?_
        h.no_cleanup
      · intro n' hn'
        rcases hn' with hn' | ⟨w, hw⟩
        · cases hn'
        · exact Or.inr ⟨w, hw⟩
      · exact fun x hx => Or.inl hx
      · intro x hx
        cases hx
        exact Or.inr ⟨m, rfl⟩
      · exact fun m' x hr => hr
      · exact id
      · intro _ hc
        cases hc
      · intro m' x _ hr
        exact h.err_kept i _ m' x hi rfl hr
      · intro _ _ _ _ hc
        cases hc
    | checked m e =>
      cases m with
      | some d =>
        rw [stepUnit_checked_some _ _ _ _ _ _ _ hi]
        refine Inv_update_quiet lib src target names s i _ _ _ h hi ?_ rfl ?_ ?_
        · intro n hn; cases hn
        · exact fun _ => Or.inl rfl
        · exact fun _ => Or.inl rfl
      | none =>
        rw [stepUnit_checked_none _ _ _ _ _ _ hi]
        refine Inv_update_quiet lib src target names s i _ _ _ h hi ?_ rfl ?_ ?_
        · intro n hn; cases hn
        · exact fun _ => Or.inl rfl
        · exact fun _ => Or.inl rfl
    | loaded d e old =>
      rw [stepUnit_loaded _ _ _ _ _ _ _ _ hi]
      refine Inv_update_quiet lib src target names s i _ _ _ h hi ?_ rfl ?_ ?_
      · intro n hn; cases hn
      · exact fun _ => Or.inl rfl
      · exact fun _ => Or.inl rfl
    | finished m e => rw [stepUnit_finished _ _ _ _ _ _ _ hi]; exact h

theorem Inv_runSched (names : List String) (sched : List Nat) (s : Shared σ)
    (h : Inv lib src target names s) :
    Inv lib src target names (runSched lib src target sched s) := by
  induction sched generalizing s with
  | nil => exact h
  | cons i rest ih =>
    simp only [runSched, List.foldl_cons]
    exact ih _ (Inv_stepUnit lib src target names s i h)

theorem Inv_finishUnit (names : List String) (i : Nat) (s : Shared σ)
    (h : Inv lib src target names s) :
    Inv lib src target names (finishUnit lib src target i s) := by
  unfold finishUnit
  exact Inv_stepUnit _ _ _ _ _ _ (Inv_stepUnit _ _ _ _ _ _ (Inv_stepUnit _ _ _ _ _ _
    (Inv_stepUnit _ _ _ _ _ _ (Inv_stepUnit _ _ _ _ _ _ h))))

theorem Inv_finishAll (names : List String) (l : List Nat) (s : Shared σ)
    (h : Inv lib src target names s) :
    Inv lib src target names (l.foldl (fun s i => finishUnit lib src target i s) s) := by
  induction l generalizing s with
  | nil => exact h
  | cons i rest ih =>
    simp only [List.foldl_cons]
    exact ih _ (Inv_finishUnit lib src target names i s h)

theorem Inv_drain (names : List String) (s : Shared σ) (h : Inv lib src target names s) :
    Inv lib src target names (drain lib src target s) :=
  Inv_finishAll lib src target names _ s h

theorem Inv_startShared (names : List String) (st : σ) :
    Inv lib src target names (startShared st names) := by
  constructor
  · simp [startShared]
  · intro j g hj
    simp only [startShared, List.getElem?_map, Option.map_eq_some'] at hj
    obtain ⟨n, hn, rfl⟩ := hj
    exact ⟨n, hn, Or.inl rfl⟩
  · intro x hx
    cases hx
  · intro x hx
    cases hx
  · intro j g m x hj hp
    simp only [startShared, List.getElem?_map, Option.map_eq_some'] at hj
    obtain ⟨n, _, rfl⟩ := hj
    cases hp
  · intro j g m x hj hp
    simp only [startShared, List.getElem?_map, Option.map_eq_some'] at hj
    obtain ⟨n, _, rfl⟩ := hj
    cases hp
  · intro seen hmem
    simp [startShared] at hmem

/-! ### Every goroutine finishes -/

theorem stepUnit_finished_stable (i j : Nat) (s : Shared σ) (g : Goroutine)
    (hj : s.units[j]? = some g) (hg : g.isFinished = true) :
    (stepUnit lib src target i s).units[j]? = some g := by
  by_cases hij : i = j
  · subst hij
    cases g with
    | finished m e => rw [stepUnit_finished _ _ _ _ _ _ _ hj]; exact hj
    | start n => cases hg
    | called m e => cases hg
    | storing m e => cases hg
    | checked m e => cases hg
    | loaded d e old => cases hg
  · rw [stepUnit_other _ _ _ _ _ _ hij]; exact hj

theorem stepUnit_remaining (i : Nat) (s : Shared σ) (g : Goroutine)
    (hi : s.units[i]? = some g) :
    ∃ g', (stepUnit lib src target i s).units[i]? = some g' ∧
      g'.remaining ≤ g.remaining - 1 := by
  cases g with
  | start n =>
    rw [stepUnit_start _ _ _ _ _ _ hi]
    exact ⟨_, getElem?_set_self_of_some _ _ _ _ hi, by simp [Goroutine.remaining]⟩
  | called m e =>
    cases e with
    | some e =>
      rw [stepUnit_called_some _ _ _ _ _ _ _ hi]
      exact ⟨_, getElem?_set_self_of_some _ _ _ _ hi, by simp [Goroutine.remaining]⟩
    | none =>
      rw [stepUnit_called_none _ _ _ _ _ _ hi]
      exact ⟨_, getElem?_set_self_of_some _ _ _ _ hi, by simp [Goroutine.remaining]⟩
  | storing m e =>
    rw [stepUnit_storing _ _ _ _ _ _ _ hi]
    exact ⟨_, getElem?_set_self_of_some _ _ _ _ hi, by simp [Goroutine.remaining]⟩
  | checked m e =>
    cases m with
    | some d =>
      rw [stepUnit_checked_some _ _ _ _ _ _ _ hi]
      exact ⟨_, getElem?_set_self_of_some _ _ _ _ hi, by simp [Goroutine.remaining]⟩
    | none =>
      rw [stepUnit_checked_none _ _ _ _ _ _ hi]
      exact ⟨_, getElem?_set_self_of_some _ _ _ _ hi, by simp [Goroutine.remaining]⟩
  | loaded d e old =>
    rw [stepUnit_loaded _ _ _ _ _ _ _ _ hi]
    exact ⟨_, getElem?_set_self_of_some _ _ _ _ hi, by simp [Goroutine.remaining]⟩
  | finished m e =>
    rw [stepUnit_finished _ _ _ _ _ _ _ hi]
    exact ⟨_, hi, by simp [Goroutine.remaining]⟩

theorem remaining_le_five (g : Goroutine) : g.remaining ≤ 5 := by
  cases g <;> simp [Goroutine.remaining]

theorem isFinished_of_remaining (g : Goroutine) (h : g.remaining ≤ 0) :
    g.isFinished = true := by
  cases g <;> first | rfl | (simp [Goroutine.remaining] at h)

theorem finishUnit_finishes (i : Nat) (s : Shared σ) (g : Goroutine)
    (hi : s.units[i]? = some g) :
    ∃ g', (finishUnit lib src target i s).units[i]? = some g' ∧ g'.isFinished = true := by
  obtain ⟨g1, h1, r1⟩ := stepUnit_remaining lib src target i s g hi
  obtain ⟨g2, h2, r2⟩ := stepUnit_remaining lib src target i _ g1 h1
  obtain ⟨g3, h3, r3⟩ := stepUnit_remaining lib src target i _ g2 h2
  obtain ⟨g4, h4, r4⟩ := stepUnit_remaining lib src target i _ g3 h3
  obtain ⟨g5, h5, r5⟩ := stepUnit_remaining lib src target i _ g4 h4
  refine ⟨g5, h5, isFinished_of_remaining g5 ?_⟩
  have := remaining_le_five g
  omega

theorem finishUnit_length (i : Nat) (s : Shared σ) :
    (finishUnit lib src target i s).units.length = s.units.length := by
  simp only [finishUnit, stepUnit_length]

theorem finishUnit_finished_stable (i j : Nat) (s : Shared σ) (g : Goroutine)
    (hj : s.units[j]? = some g) (hg : g.isFinished = true) :
    (finishUnit lib src target i s).units[j]? = some g := by
  unfold finishUnit
  exact stepUnit_finished_stable _ _ _ _ _ _ _
    (stepUnit_finished_stable _ _ _ _ _ _ _
      (stepUnit_finished_stable _ _ _ _ _ _ _
        (stepUnit_finished_stable _ _ _ _ _ _ _
          (stepUnit_finished_stable _ _ _ _ _ _ _ hj hg) hg) hg) hg) hg

theorem finishAll_length (l : List Nat) (s : Shared σ) :
    (l.foldl (fun s i => finishUnit lib src target i s) s).units.length = s.units.length := by
  induction l generalizing s with
  | nil => rfl
  | cons i rest ih => simp only [List.foldl_cons, ih, finishUnit_length]

theorem finishAll_finished_stable (l : List Nat) (j : Nat) (s : Shared σ) (g : Goroutine)
    (hj : s.units[j]? = some g) (hg : g.isFinished = true) :
    (l.foldl (fun s i => finishUnit lib src target i s) s).units[j]? = some g := by
  induction l generalizing s with
  | nil => exact hj
  | cons i rest ih =>
    simp only [List.foldl_cons]
    exact ih _ (finishUnit_finished_stable lib src target i j s g hj hg)

theorem finishAll_finishes (l : List Nat) (j : Nat) (s : Shared σ) (hmem : j ∈ l)
    (hlt : j < s.units.length) :
    ∃ g, (l.foldl (fun s i => finishUnit lib src target i s) s).units[j]? = some g ∧
      g.isFinished = true := by
  induction l generalizing s with
  | nil => cases hmem
  | cons i rest ih =>
    simp only [List.foldl_cons]
    by_cases hji : j = i
    · subst hji
      have hsome : s.units[j]? = some (s.units[j]) := List.getElem?_eq_getElem hlt
      obtain ⟨g', hg', hfin⟩ := finishUnit_finishes lib src target j s _ hsome
      exact ⟨g', finishAll_finished_stable lib src target rest j _ g' hg' hfin, hfin⟩
    · have hmem' : j ∈ rest := by
        rcases List.mem_cons.mp hmem with h | h
        · exact absurd h hji
        · exact h
      exact ih _ hmem' (by rw [finishUnit_length]; exact hlt)

theorem drain_length (s : Shared σ) :
    (drain lib src target s).units.length = s.units.length :=
  finishAll_length lib src target _ s

theorem drain_all_finished (s : Shared σ) (j : Nat) (g : Goroutine)
    (hj : (drain lib src target s).units[j]? = some g) : g.isFinished = true := by
  have hlt : j < s.units.length := by
    rw [← drain_length lib src target s]
    rcases Nat.lt_or_ge j (drain lib src target s).units.length with h | h
    · exact h
    · rw [List.getElem?_eq_none h] at hj
      cases hj
  obtain ⟨g', hg', hfin⟩ :=
    finishAll_finishes lib src target (List.range s.units.length) j s (List.mem_range.mpr hlt) hlt
  have : (drain lib src target s).units[j]? = some g' := hg'
  rw [this] at hj
  cases hj
  exact hfin

/-! ### A goroutine whose `process` returns `(nil, nil)` -/

theorem steps_preserve (P : Shared σ → Prop)
    (hP : ∀ i s, P s → P (stepUnit lib src target i s)) (sched : List Nat) (s : Shared σ)
    (h : P s) : P (drain lib src target (runSched lib src target sched s)) := by
  have hrun : ∀ (l : List Nat) (s : Shared σ), P s → P (runSched lib src target l s) := by
    intro l
    induction l with
    | nil => intro s h; exact h
    | cons i rest ih =>
      intro s h
      simp only [runSched, List.foldl_cons]
      exact ih _ (hP i s h)
  have hfin : ∀ (l : List Nat) (s : Shared σ), P s →
      P (l.foldl (fun s i => finishUnit lib src target i s) s) := by
    intro l
    induction l with
    | nil => intro s h; exact h
    | cons i rest ih =>
      intro s h
      simp only [List.foldl_cons]
      exact ih _ (hP i _ (hP i _ (hP i _ (hP i _ (hP i s h)))))
  exact hfin _ _ (hrun sched s h)

theorem stepUnit_skips (n : String) (hnil : ∀ w : World σ, process lib src n target w = ((none, none), w))
    (i : Nat) (s : Shared σ) (g : Goroutine) (hi : s.units[i]? = some g) (hg : g.skips n) :
    (stepUnit lib src target i s).world = s.world ∧
    (stepUnit lib src target i s).err = s.err ∧
    (stepUnit lib src target i s).seen = s.seen ∧
    ∃ g', (stepUnit lib src target i s).units[i]? = some g' ∧ g'.skips n := by
  rcases hg with rfl | rfl | rfl | rfl
  · rw [stepUnit_start _ _ _ _ _ _ hi, hnil]
    exact ⟨rfl, rfl, rfl, _, getElem?_set_self_of_some _ _ _ _ hi, Or.inr (Or.inl rfl)⟩
  · rw [stepUnit_called_none _ _ _ _ _ _ hi]
    exact ⟨rfl, rfl, rfl, _, getElem?_set_self_of_some _ _ _ _ hi, Or.inr (Or.inr (Or.inl rfl))⟩
  · rw [stepUnit_checked_none _ _ _ _ _ _ hi]
    exact ⟨rfl, rfl, rfl, _, getElem?_set_self_of_some _ _ _ _ hi, Or.inr (Or.inr (Or.inr rfl))⟩
  · rw [stepUnit_finished _ _ _ _ _ _ _ hi]
    exact ⟨rfl, rfl, rfl, _, hi, Or.inr (Or.inr (Or.inr rfl))⟩

theorem run_skips (n : String) (hnil : ∀ w : World σ, process lib src n target w = ((none, none), w))
    (i : Nat) (sched : List Nat) (s : Shared σ) (hi : s.units[i]? = some (.start n)) :
    (drain lib src target (runSched lib src target sched s)).units[i]? =
      some (.finished none none) := by
  have h := steps_preserve lib src target (fun s => ∃ g, s.units[i]? = some g ∧ g.skips n)
    (by
      intro k s ⟨g, hg, hs⟩
      by_cases hki : k = i
      · subst hki
        exact (stepUnit_skips lib src target n hnil k s g hg hs).2.2.2
      · exact ⟨g, by rw [stepUnit_other _ _ _ _ _ _ hki]; exact hg, hs⟩)
    sched s ⟨_, hi, Or.inl rfl⟩
  obtain ⟨g, hg, hs⟩ := h
  have hfin := drain_all_finished lib src target _ i g hg
  rcases hs with rfl | rfl | rfl | rfl
  · cases hfin
  · cases hfin
  · cases hfin
  · exact hg

end steps

/-! ## Theorems on `Process` -/

/-- Either `Process` returned before it started a goroutine, or it ran the
goroutines to their end from the state `startShared` and then looked at
`err`. -/
theorem Process_cases {σ : Type} (lib : Library) (newFolderTarget : String → Target σ)
    (src : ManifestSource) (opts : Options) (sched : List Nat) (st : σ) :
    ((Process lib newFolderTarget src opts sched st).units = [] ∧
      (Process lib newFolderTarget src opts sched st).world.calls ⊆ [Call.Prepare]) ∨
    ∃ names s, src.Names = .ok names ∧
      ((newFolderTarget opts.OutputFolder).Prepare st).1 = none ∧
      s = drain lib src (newFolderTarget opts.OutputFolder)
        (runSched lib src (newFolderTarget opts.OutputFolder) sched
          (startShared ((newFolderTarget opts.OutputFolder).Prepare st).2 names)) ∧
      ((∃ x, s.err.tab = some x ∧
          Process lib newFolderTarget src opts sched st =
            ⟨if s.err.data = some x then .returned (some x) else .torn x s.err.data,
              s.world, s.units⟩) ∨
       (s.err.tab = none ∧
          Process lib newFolderTarget src opts sched st =
            ⟨.returned ((newFolderTarget opts.OutputFolder).Cleanup s.seen s.world.state).1,
             ⟨((newFolderTarget opts.OutputFolder).Cleanup s.seen s.world.state).2,
              s.world.calls ++ [Call.Cleanup s.seen]⟩, s.units⟩)) := by
  unfold Process
  cases hn : src.Names with
  | error e => left; simp
  | ok names =>
    dsimp only
    split
    · left; simp
    · by_cases hm : opts.Mode = WriteToFolder
      · simp only [hm, if_true]
        cases hp : ((newFolderTarget opts.OutputFolder).Prepare st).1 with
        | some e => left; simp
        | none =>
          right
          refine ⟨names, _, rfl, rfl, rfl, ?_⟩
          cases he : (drain lib src (newFolderTarget opts.OutputFolder)
            (runSched lib src (newFolderTarget opts.OutputFolder) sched
              (startShared ((newFolderTarget opts.OutputFolder).Prepare st).2
                names))).err.tab with
          | some x => left; exact ⟨x, rfl, rfl⟩
          | none => right; exact ⟨rfl, rfl⟩
      · simp only [hm, if_false]
        left; simp



/-! ## The goroutines one after the other -/

section serial
variable {σ : Type} (lib : Library) (src : ManifestSource) (target : Target σ)

theorem finishUnit_start (i : Nat) (s : Shared σ) (n : String)
    (hi : s.units[i]? = some (.start n)) :
    finishUnit lib src target i s =
      ⟨(process lib src n target s.world).2,
       (match (process lib src n target s.world).1.2 with
        | some e => ⟨some e, some e⟩
        | none => s.err),
       (match (process lib src n target s.world).1.1 with
        | some d => s.seen ++ [d]
        | none => s.seen),
       s.units.set i (.finished (process lib src n target s.world).1.1
         (process lib src n target s.world).1.2)⟩ := by
  have hlt : i < s.units.length := by
    rcases Nat.lt_or_ge i s.units.length with h | h
    · exact h
    · rw [List.getElem?_eq_none h] at hi
      cases hi
  generalize hr : process lib src n target s.world = r
  obtain ⟨⟨m, e⟩, w⟩ := r
  cases m <;> cases e <;>
    simp [finishUnit, stepUnit, hi, hr, List.getElem?_set, hlt]

theorem take_succ_set {α : Type} (l : List α) (k : Nat) (a : α) (h : k < l.length) :
    (l.set k a).take (k + 1) = l.take k ++ [a] := by
  induction l generalizing k with
  | nil => simp at h
  | cons b l ih =>
    cases k with
    | zero => simp
    | succ k =>
      have hk : k < l.length := by simpa using h
      simp [ih k hk]

theorem serial_units (names : List String) (st : σ) (k : Nat) (hk : k ≤ names.length) :
    ((List.range k).foldl (fun s i => finishUnit lib src target i s)
        (startShared st names)).units.length = names.length ∧
    (∀ (j : Nat) (n : String), k ≤ j → names[j]? = some n →
      ((List.range k).foldl (fun s i => finishUnit lib src target i s)
        (startShared st names)).units[j]? = some (.start n)) ∧
    ((List.range k).foldl (fun s i => finishUnit lib src target i s)
        (startShared st names)).seen =
      (((List.range k).foldl (fun s i => finishUnit lib src target i s)
        (startShared st names)).units.take k).filterMap Goroutine.descriptor ∧
    ((List.range k).foldl (fun s i => finishUnit lib src target i s)
        (startShared st names)).err.tab =
      ((List.range k).foldl (fun s i => finishUnit lib src target i s)
        (startShared st names)).err.data := by
  induction k with
  | zero =>
    refine ⟨by simp [startShared], ?_, by simp [startShared], rfl⟩
    intro j n _ hn
    simp [startShared, List.getElem?_map, hn]
  | succ k ih =>
    obtain ⟨hlen, hrest, hseen, hwords⟩ := ih (by omega)
    have hklt : k < names.length := by omega
    have hname : names[k]? = some names[k] := List.getElem?_eq_getElem hklt
    rw [List.range_succ, List.foldl_append]
    simp only [List.foldl_cons, List.foldl_nil]
    generalize (List.range k).foldl (fun s i => finishUnit lib src target i s)
      (startShared st names) = s at hlen hrest hseen hwords
    have hstart := hrest k _ (Nat.le_refl k) hname
    rw [finishUnit_start lib src target k s _ hstart]
    refine ⟨by simpa using hlen, ?_, ?_, ?_⟩
    · intro j n hj hn
      rw [getElem?_set_other _ _ _ _ (by omega)]
      exact hrest j n (by omega) hn
    · dsimp only
      rw [take_succ_set _ _ _ (by omega), List.filterMap_append, ← hseen]
      cases (process lib src names[k] target s.world).1.1 <;>
        simp [Goroutine.descriptor, Goroutine.result]
    · dsimp only
      cases (process lib src names[k] target s.world).1.2 with
      | some e => rfl
      | none => exact hwords

theorem process_result (n : String) (w : World σ) :
    (∃ e, (process lib src n target w).1 = (none, some e)) ∨
    process lib src n target w = ((none, none), w) ∨
    ∃ d data, (process lib src n target w).1 = (some d, none) ∧
      (target.Apply d data w.state).1 = none ∧
      (process lib src n target w).2.state = (target.Apply d data w.state).2 := by
  unfold process
  dsimp only
  repeat' split
  all_goals first
    | exact Or.inl ⟨_, rfl⟩
    | exact Or.inr (Or.inl rfl)
    | exact Or.inr (Or.inr ⟨_, _, rfl, by assumption, rfl⟩)

theorem serial_held (held : σ → List String) (lowerCase : Char → Char) (hc : ObeysContract lowerCase target held)
    (names : List String) (st : σ) (k : Nat) (hk : k ≤ names.length) :
    ((List.range k).foldl (fun s i => finishUnit lib src target i s)
        (startShared st names)).err.tab = none →
    ∀ d ∈ ((List.range k).foldl (fun s i => finishUnit lib src target i s)
        (startShared st names)).seen,
      canonicalIdentifier lowerCase d ∈ held ((List.range k).foldl
        (fun s i => finishUnit lib src target i s) (startShared st names)).world.state := by
  induction k with
  | zero =>
    intro _ d hd
    simp [startShared] at hd
  | succ k ih =>
    have hklt : k < names.length := by omega
    have hname : names[k]? = some names[k] := List.getElem?_eq_getElem hklt
    have hstart := (serial_units lib src target names st k (by omega)).2.1 k _
      (Nat.le_refl k) hname
    have ih := ih (by omega)
    rw [List.range_succ, List.foldl_append]
    simp only [List.foldl_cons, List.foldl_nil]
    generalize (List.range k).foldl (fun s i => finishUnit lib src target i s)
      (startShared st names) = s at ih hstart
    rw [finishUnit_start lib src target k s _ hstart]
    dsimp only
    rcases process_result lib src target names[k] s.world with
      ⟨e, he⟩ | hnil | ⟨d, data, hd, hok, hstate⟩
    · rw [he]
      intro herr
      cases herr
    · rw [hnil]
      exact ih
    · rw [hd, hstate]
      intro herr d' hd'
      rw [hc.apply d data s.world.state hok]
      rcases List.mem_append.mp hd' with h | h
      · exact Or.inr (ih herr d' h)
      · rw [List.mem_singleton.mp h]
        exact Or.inl rfl

end serial

theorem Process_of_prepared {σ : Type} (lib : Library) (newFolderTarget : String → Target σ)
    (src : ManifestSource) (opts : Options) (sched : List Nat) (st : σ) (names : List String)
    (s : Shared σ)
    (hnames : src.Names = .ok names) (hmode : opts.Mode = WriteToFolder)
    (hfolder : opts.OutputFolder ≠ "")
    (hprep : ((newFolderTarget opts.OutputFolder).Prepare st).1 = none)
    (hs : s = drain lib src (newFolderTarget opts.OutputFolder)
          (runSched lib src (newFolderTarget opts.OutputFolder) sched
            (startShared ((newFolderTarget opts.OutputFolder).Prepare st).2 names))) :
    Process lib newFolderTarget src opts sched st =
      match s.err.tab with
      | some err =>
        ⟨if s.err.data = some err then .returned (some err) else .torn err s.err.data,
          s.world, s.units⟩
      | none =>
        ⟨.returned ((newFolderTarget opts.OutputFolder).Cleanup s.seen s.world.state).1,
          ⟨((newFolderTarget opts.OutputFolder).Cleanup s.seen s.world.state).2,
           s.world.calls ++ [Call.Cleanup s.seen]⟩, s.units⟩ := by
  subst hs
  unfold Process
  simp only [hnames, hmode, hfolder, hprep, and_false, if_false, if_true]

/-- On the schedule where each goroutine runs to its end before the next one
starts, and no unit fails: `Cleanup` is called once, as the last call, with
exactly the descriptors that the units returned, in the order of `names`. -/
theorem Process_serial_cleanup {σ : Type} (lib : Library) (newFolderTarget : String → Target σ)
    (src : ManifestSource) (opts : Options) (st : σ) (names : List String)
    (hnames : src.Names = .ok names) (hmode : opts.Mode = WriteToFolder)
    (hfolder : opts.OutputFolder ≠ "")
    (hprep : ((newFolderTarget opts.OutputFolder).Prepare st).1 = none)
    (hok : ∀ (j : Nat) (m : Option Manifest) (x : GoError),
      (Process lib newFolderTarget src opts [] st).units[j]? ≠
        some (Goroutine.finished m (some x))) :
    (Process lib newFolderTarget src opts [] st).units.length = names.length ∧
    ∃ pre, (Process lib newFolderTarget src opts [] st).world.calls =
        pre ++ [Call.Cleanup
          ((Process lib newFolderTarget src opts [] st).units.filterMap Goroutine.descriptor)] ∧
      ∀ seen, Call.Cleanup seen ∉ pre := by
  have hP := Process_of_prepared lib newFolderTarget src opts [] st names _
    hnames hmode hfolder hprep rfl
  have hinv : Inv lib src (newFolderTarget opts.OutputFolder) names
      (drain lib src (newFolderTarget opts.OutputFolder)
        (runSched lib src (newFolderTarget opts.OutputFolder) []
          (startShared ((newFolderTarget opts.OutputFolder).Prepare st).2 names))) :=
    Inv_drain _ _ _ _ _ (Inv_runSched _ _ _ _ _ _ (Inv_startShared _ _ _ _ _))
  have hser := serial_units lib src (newFolderTarget opts.OutputFolder) names
    ((newFolderTarget opts.OutputFolder).Prepare st).2 names.length (Nat.le_refl _)
  have hdrain : drain lib src (newFolderTarget opts.OutputFolder)
        (runSched lib src (newFolderTarget opts.OutputFolder) []
          (startShared ((newFolderTarget opts.OutputFolder).Prepare st).2 names)) =
      (List.range names.length).foldl
        (fun s i => finishUnit lib src (newFolderTarget opts.OutputFolder) i s)
        (startShared ((newFolderTarget opts.OutputFolder).Prepare st).2 names) := by
    simp [drain, runSched, startShared]
  rw [← hdrain] at hser
  have hfin : ∀ (j : Nat) (g : Goroutine),
      (drain lib src (newFolderTarget opts.OutputFolder)
        (runSched lib src (newFolderTarget opts.OutputFolder) []
          (startShared ((newFolderTarget opts.OutputFolder).Prepare st).2 names))).units[j]? =
        some g → g.isFinished = true :=
    fun j g hj => drain_all_finished _ _ _ _ j g hj
  generalize drain lib src (newFolderTarget opts.OutputFolder)
        (runSched lib src (newFolderTarget opts.OutputFolder) []
          (startShared ((newFolderTarget opts.OutputFolder).Prepare st).2 names)) = s
    at hP hinv hser hfin
  obtain ⟨hlen, _, hseen, hwords⟩ := hser
  rw [← hlen, List.take_length] at hseen
  cases herr : s.err.tab with
  | some x =>
    exfalso
    obtain ⟨j, g, m, hj, hr⟩ := hinv.err_from x herr
    have hunits : (Process lib newFolderTarget src opts [] st).units = s.units := by
      rw [hP, herr]
    have hg := hfin j g hj
    cases g with
    | finished m' e' =>
      cases hr
      exact hok j m x (by rw [hunits]; exact hj)
    | start n => cases hg
    | called m' e' => cases hg
    | storing m' e' => cases hg
    | checked m' e' => cases hg
    | loaded d e' old => cases hg
  | none =>
    rw [hP, herr]
    exact ⟨hlen, s.world.calls, by rw [hseen], hinv.no_cleanup⟩

/-- When `Process` returns nil it has gone all the way: `Names()` and
`Prepare()` succeeded and the options name a folder. -/
theorem Process_nil_prepared {σ : Type} (lib : Library) (newFolderTarget : String → Target σ)
    (src : ManifestSource) (opts : Options) (sched : List Nat) (st : σ)
    (hnil : (Process lib newFolderTarget src opts sched st).outcome = .returned none) :
    ∃ names, src.Names = .ok names ∧ opts.Mode = WriteToFolder ∧ opts.OutputFolder ≠ "" ∧
      ((newFolderTarget opts.OutputFolder).Prepare st).1 = none := by
  unfold Process at hnil
  cases hn : src.Names with
  | error e => simp [hn] at hnil
  | ok names =>
    refine ⟨names, rfl, ?_⟩
    simp only [hn] at hnil
    by_cases hmode : opts.Mode = WriteToFolder
    · by_cases hfolder : opts.OutputFolder = ""
      · simp [hmode, hfolder] at hnil
      · refine ⟨hmode, hfolder, ?_⟩
        cases hp : ((newFolderTarget opts.OutputFolder).Prepare st).1 with
        | none => rfl
        | some e => simp [hmode, hfolder, hp] at hnil
    · simp [hmode] at hnil

/-- On the schedule where each goroutine runs to its end before the next one
starts, with a target that obeys the contract of §6: if `Process` returns nil,
the target then holds exactly the canonical identifiers of the descriptors
that the units of this pass returned. -/
theorem Process_serial_reconciles {σ : Type} (lib : Library)
    (newFolderTarget : String → Target σ) (src : ManifestSource) (opts : Options) (st : σ)
    (lowerCase : Char → Char) (held : σ → List String)
    (hc : ObeysContract lowerCase (newFolderTarget opts.OutputFolder) held)
    (hnil : (Process lib newFolderTarget src opts [] st).outcome = .returned none) :
    ∀ x, x ∈ held (Process lib newFolderTarget src opts [] st).world.state ↔
      x ∈ ((Process lib newFolderTarget src opts [] st).units.filterMap
        Goroutine.descriptor).map (canonicalIdentifier lowerCase) := by
  obtain ⟨names, hnames, hmode, hfolder, hprep⟩ :=
    Process_nil_prepared lib newFolderTarget src opts [] st hnil
  have hP := Process_of_prepared lib newFolderTarget src opts [] st names _
    hnames hmode hfolder hprep rfl
  have hser := serial_units lib src (newFolderTarget opts.OutputFolder) names
    ((newFolderTarget opts.OutputFolder).Prepare st).2 names.length (Nat.le_refl _)
  have hheld := serial_held lib src (newFolderTarget opts.OutputFolder) held lowerCase hc names
    ((newFolderTarget opts.OutputFolder).Prepare st).2 names.length (Nat.le_refl _)
  have hdrain : drain lib src (newFolderTarget opts.OutputFolder)
        (runSched lib src (newFolderTarget opts.OutputFolder) []
          (startShared ((newFolderTarget opts.OutputFolder).Prepare st).2 names)) =
      (List.range names.length).foldl
        (fun s i => finishUnit lib src (newFolderTarget opts.OutputFolder) i s)
        (startShared ((newFolderTarget opts.OutputFolder).Prepare st).2 names) := by
    simp [drain, runSched, startShared]
  rw [← hdrain] at hser hheld
  generalize drain lib src (newFolderTarget opts.OutputFolder)
        (runSched lib src (newFolderTarget opts.OutputFolder) []
          (startShared ((newFolderTarget opts.OutputFolder).Prepare st).2 names)) = s
    at hP hser hheld
  obtain ⟨hlen, _, hseen, hwords⟩ := hser
  rw [← hlen, List.take_length] at hseen
  cases herr : s.err.tab with
  | some e =>
    rw [hP, herr] at hnil
    dsimp only at hnil
    split at hnil <;> cases hnil
  | none =>
    rw [hP, herr] at hnil ⊢
    have hclean : ((newFolderTarget opts.OutputFolder).Cleanup s.seen s.world.state).1 = none :=
      Outcome.returned.inj hnil
    intro x
    dsimp only
    rw [hc.cleanup s.seen s.world.state hclean x, ← hseen]
    constructor
    · exact fun h => h.2
    · intro h
      refine ⟨?_, h⟩
      obtain ⟨d, hd, rfl⟩ := List.mem_map.mp h
      exact hheld herr d hd

/-- The target `memoryTarget` obeys the contract of §6. -/
theorem memoryTarget_obeys (lowerCase : Char → Char) :
    ObeysContract lowerCase (memoryTarget lowerCase) id := by
  constructor
  · intro m data s _ x
    simp [memoryTarget]
  · intro seen s _ x
    simp [memoryTarget]

/-! ## Leaving out a name that renders to nothing -/

theorem set_of_getElem? {α : Type} (l : List α) (i : Nat) (a : α) (h : l[i]? = some a) :
    l.set i a = l := by
  induction l generalizing i with
  | nil => rfl
  | cons b l ih =>
    cases i with
    | zero =>
      simp only [List.getElem?_cons_zero, Option.some.injEq] at h
      simp [h]
    | succ i =>
      simp only [List.getElem?_cons_succ] at h
      simp [ih i h]

theorem eraseIdx_set_self {α : Type} (l : List α) (i : Nat) (a : α) :
    (l.set i a).eraseIdx i = l.eraseIdx i := by
  induction l generalizing i with
  | nil => rfl
  | cons b l ih =>
    cases i with
    | zero => rfl
    | succ i => simp [ih i]

theorem eraseIdx_set_other {α : Type} (l : List α) (i j : Nat) (a : α) (h : j ≠ i) :
    (l.set j a).eraseIdx i = (l.eraseIdx i).set (withoutIndex i j) a := by
  induction l generalizing i j with
  | nil => rfl
  | cons b l ih =>
    cases i with
    | zero =>
      cases j with
      | zero => exact absurd rfl h
      | succ j => simp [withoutIndex]
    | succ i =>
      cases j with
      | zero => simp [withoutIndex]
      | succ j =>
        have hji : j ≠ i := fun hji => h (by rw [hji])
        have hw : withoutIndex (i + 1) (j + 1) = withoutIndex i j + 1 := by
          unfold withoutIndex
          split <;> split <;> omega
        simp [ih i j hji, hw]

theorem getElem?_eraseIdx_other {α : Type} (l : List α) (i j : Nat) (h : j ≠ i) :
    (l.eraseIdx i)[withoutIndex i j]? = l[j]? := by
  rw [List.getElem?_eraseIdx]
  unfold withoutIndex
  split
  · rename_i hij
    have h1 : ¬ (j - 1 < i) := by omega
    have h2 : j - 1 + 1 = j := by omega
    rw [if_neg h1, h2]
  · have h1 : j < i := by omega
    rw [if_pos h1]

theorem eraseIdx_map {α β : Type} (f : α → β) (l : List α) (i : Nat) :
    (l.map f).eraseIdx i = (l.eraseIdx i).map f := by
  induction l generalizing i with
  | nil => rfl
  | cons b l ih =>
    cases i with
    | zero => rfl
    | succ i => simp [ih i]

section without
variable {σ : Type} (lib : Library) (src : ManifestSource) (target : Target σ)

theorem stepUnit_eq_unitStep (i : Nat) (s : Shared σ) (g : Goroutine)
    (h : s.units[i]? = some g) :
    stepUnit lib src target i s =
      ⟨(unitStep lib src target g s.world s.err s.seen).2.1,
       (unitStep lib src target g s.world s.err s.seen).2.2.1,
       (unitStep lib src target g s.world s.err s.seen).2.2.2,
       s.units.set i (unitStep lib src target g s.world s.err s.seen).1⟩ := by
  cases g with
  | start n => rw [stepUnit_start _ _ _ _ _ _ h]; rfl
  | called m e =>
    cases e with
    | some e => rw [stepUnit_called_some _ _ _ _ _ _ _ h]; rfl
    | none => rw [stepUnit_called_none _ _ _ _ _ _ h]; rfl
  | storing m e => rw [stepUnit_storing _ _ _ _ _ _ _ h]; rfl
  | checked m e =>
    cases m with
    | some d => rw [stepUnit_checked_some _ _ _ _ _ _ _ h]; rfl
    | none => rw [stepUnit_checked_none _ _ _ _ _ _ h]; rfl
  | loaded d e old => rw [stepUnit_loaded _ _ _ _ _ _ _ _ h]; rfl
  | finished m e =>
    rw [stepUnit_finished _ _ _ _ _ _ _ h]
    simp only [unitStep]
    rw [set_of_getElem? _ _ _ h]

theorem Without_step_self (i : Nat) (n : String)
    (hnil : ∀ w : World σ, process lib src n target w = ((none, none), w))
    (s s' : Shared σ) (h : Without i n s s') :
    Without i n (stepUnit lib src target i s) s' := by
  obtain ⟨g, hg, hs⟩ := h.unit
  obtain ⟨hw, he, hseen, g', hg', hs'⟩ := stepUnit_skips lib src target n hnil i s g hg hs
  refine ⟨by rw [hw]; exact h.world, by rw [he]; exact h.err, by rw [hseen]; exact h.seen, ?_,
    ⟨g', hg', hs'⟩⟩
  rw [h.units, stepUnit_eq_unitStep lib src target i s g hg]
  exact (eraseIdx_set_self _ _ _).symm

theorem Without_step_other (i j : Nat) (n : String) (hji : j ≠ i)
    (s s' : Shared σ) (h : Without i n s s') :
    Without i n (stepUnit lib src target j s) (stepUnit lib src target (withoutIndex i j) s') := by
  have hget : s'.units[withoutIndex i j]? = s.units[j]? := by
    rw [h.units, getElem?_eraseIdx_other _ _ _ hji]
  obtain ⟨gi, hgi, hsi⟩ := h.unit
  cases hj : s.units[j]? with
  | none =>
    rw [stepUnit_out_of_range _ _ _ _ _ hj, stepUnit_out_of_range _ _ _ _ _ (hget.trans hj)]
    exact h
  | some g =>
    rw [stepUnit_eq_unitStep lib src target j s g hj,
      stepUnit_eq_unitStep lib src target _ s' g (hget.trans hj), h.world, h.err, h.seen, h.units]
    refine ⟨rfl, rfl, rfl, ?_, ⟨gi, ?_, hsi⟩⟩
    · exact (eraseIdx_set_other _ _ _ _ hji).symm
    · dsimp only
      rw [getElem?_set_other _ _ _ _ (fun h => hji h.symm)]
      exact hgi

theorem dropUnit_cons_self (i : Nat) (rest : List Nat) :
    dropUnit i (i :: rest) = dropUnit i rest := by
  simp [dropUnit]

theorem dropUnit_cons_other (i j : Nat) (rest : List Nat) (h : j ≠ i) :
    dropUnit i (j :: rest) = withoutIndex i j :: dropUnit i rest := by
  simp [dropUnit, h]

theorem Without_runSched (i : Nat) (n : String)
    (hnil : ∀ w : World σ, process lib src n target w = ((none, none), w))
    (sched : List Nat) (s s' : Shared σ) (h : Without i n s s') :
    Without i n (runSched lib src target sched s)
      (runSched lib src target (dropUnit i sched) s') := by
  induction sched generalizing s s' with
  | nil => exact h
  | cons j rest ih =>
    by_cases hji : j = i
    · subst hji
      rw [dropUnit_cons_self]
      simp only [runSched, List.foldl_cons]
      exact ih _ _ (Without_step_self lib src target j n hnil s s' h)
    · rw [dropUnit_cons_other _ _ _ hji]
      simp only [runSched, List.foldl_cons]
      exact ih _ _ (Without_step_other lib src target i j n hji s s' h)

theorem Without_finishUnit_self (i : Nat) (n : String)
    (hnil : ∀ w : World σ, process lib src n target w = ((none, none), w))
    (s s' : Shared σ) (h : Without i n s s') :
    Without i n (finishUnit lib src target i s) s' := by
  unfold finishUnit
  exact Without_step_self _ _ _ _ _ hnil _ _ (Without_step_self _ _ _ _ _ hnil _ _
    (Without_step_self _ _ _ _ _ hnil _ _ (Without_step_self _ _ _ _ _ hnil _ _
      (Without_step_self _ _ _ _ _ hnil _ _ h))))

theorem Without_finishUnit_other (i j : Nat) (n : String) (hji : j ≠ i)
    (s s' : Shared σ) (h : Without i n s s') :
    Without i n (finishUnit lib src target j s)
      (finishUnit lib src target (withoutIndex i j) s') := by
  unfold finishUnit
  exact Without_step_other _ _ _ _ _ _ hji _ _ (Without_step_other _ _ _ _ _ _ hji _ _
    (Without_step_other _ _ _ _ _ _ hji _ _ (Without_step_other _ _ _ _ _ _ hji _ _
      (Without_step_other _ _ _ _ _ _ hji _ _ h))))

theorem Without_finishAll (i : Nat) (n : String)
    (hnil : ∀ w : World σ, process lib src n target w = ((none, none), w))
    (l : List Nat) (s s' : Shared σ) (h : Without i n s s') :
    Without i n (l.foldl (fun s k => finishUnit lib src target k s) s)
      ((dropUnit i l).foldl (fun s k => finishUnit lib src target k s) s') := by
  induction l generalizing s s' with
  | nil => exact h
  | cons j rest ih =>
    by_cases hji : j = i
    · subst hji
      rw [dropUnit_cons_self]
      simp only [List.foldl_cons]
      exact ih _ _ (Without_finishUnit_self lib src target j n hnil s s' h)
    · rw [dropUnit_cons_other _ _ _ hji]
      simp only [List.foldl_cons]
      exact ih _ _ (Without_finishUnit_other lib src target i j n hji s s' h)

theorem dropUnit_range_of_le (i k : Nat) (h : k ≤ i) : dropUnit i (List.range k) = List.range k := by
  induction k with
  | zero => rfl
  | succ k ih =>
    have hk : k ≠ i := by omega
    have hw : withoutIndex i k = k := by
      unfold withoutIndex
      rw [if_neg (by omega)]
    rw [List.range_succ, dropUnit, List.filterMap_append, ← dropUnit, ih (by omega)]
    simp [hk, hw]

theorem dropUnit_range (i k : Nat) (h : i < k) :
    dropUnit i (List.range k) = List.range (k - 1) := by
  induction k with
  | zero => omega
  | succ k ih =>
    rw [List.range_succ, dropUnit, List.filterMap_append, ← dropUnit]
    by_cases hik : i < k
    · have hk : k ≠ i := by omega
      have hw : withoutIndex i k = k - 1 := by
        unfold withoutIndex
        rw [if_pos hik]
      rw [ih hik]
      have hrange : List.range (k + 1 - 1) = List.range (k - 1) ++ [k - 1] := by
        have : k + 1 - 1 = (k - 1) + 1 := by omega
        rw [this, List.range_succ]
      rw [hrange]
      simp [hk, hw]
    · have hki : k = i := by omega
      rw [dropUnit_range_of_le i k (by omega)]
      simp [hki]

theorem Without_drain (i : Nat) (n : String)
    (hnil : ∀ w : World σ, process lib src n target w = ((none, none), w))
    (s s' : Shared σ) (h : Without i n s s') :
    Without i n (drain lib src target s) (drain lib src target s') := by
  obtain ⟨g, hg, _⟩ := h.unit
  have hlt : i < s.units.length := by
    rcases Nat.lt_or_ge i s.units.length with hlt | hge
    · exact hlt
    · rw [List.getElem?_eq_none hge] at hg
      cases hg
  have hlen : s'.units.length = s.units.length - 1 := by
    rw [h.units, List.length_eraseIdx_of_lt hlt]
  unfold drain
  rw [hlen, ← dropUnit_range i _ hlt]
  exact Without_finishAll lib src target i n hnil _ s s' h

end without
theorem stepUnit_source {σ : Type} (lib : Library) (src : ManifestSource) (target : Target σ)
    (names : Except GoError (List String)) (i : Nat) (s : Shared σ) :
    stepUnit lib ⟨names, src.Get⟩ target i s = stepUnit lib src target i s := rfl

theorem runSched_source {σ : Type} (lib : Library) (src : ManifestSource) (target : Target σ)
    (names : Except GoError (List String)) (sched : List Nat) (s : Shared σ) :
    runSched lib ⟨names, src.Get⟩ target sched s = runSched lib src target sched s := by
  simp only [runSched, stepUnit_source]

theorem drain_source {σ : Type} (lib : Library) (src : ManifestSource) (target : Target σ)
    (names : Except GoError (List String)) (s : Shared σ) :
    drain lib ⟨names, src.Get⟩ target s = drain lib src target s := by
  simp only [drain, finishUnit, stepUnit_source]

/-- A name whose `process` returns `(nil, nil)` and leaves the world alone can
be left out: `Process` ends the same way, with the same calls on the target
(the list given to `Cleanup` among them) and the same storage, as it does
for the names without it, on the schedule without the steps of its goroutine;
and the other goroutines end the same. -/
theorem Process_without_skipped {σ : Type} (lib : Library)
    (newFolderTarget : String → Target σ) (src : ManifestSource) (opts : Options)
    (sched : List Nat) (st : σ) (names : List String) (i : Nat) (n : String)
    (hnil : ∀ (t : Target σ) (w : World σ), process lib src n t w = ((none, none), w))
    (hnames : src.Names = .ok names) (hi : names[i]? = some n) :
    (Process lib newFolderTarget src opts sched st).outcome =
      (Process lib newFolderTarget ⟨.ok (names.eraseIdx i), src.Get⟩ opts
        (dropUnit i sched) st).outcome ∧
    (Process lib newFolderTarget src opts sched st).world =
      (Process lib newFolderTarget ⟨.ok (names.eraseIdx i), src.Get⟩ opts
        (dropUnit i sched) st).world ∧
    (Process lib newFolderTarget src opts sched st).units.eraseIdx i =
      (Process lib newFolderTarget ⟨.ok (names.eraseIdx i), src.Get⟩ opts
        (dropUnit i sched) st).units := by
  by_cases hmode : opts.Mode = WriteToFolder
  · by_cases hfolder : opts.OutputFolder = ""
    · simp [Process, hnames, hmode, hfolder]
    · cases hprep : ((newFolderTarget opts.OutputFolder).Prepare st).1 with
      | some e => simp [Process, hnames, hmode, hfolder, hprep]
      | none =>
        have hP := Process_of_prepared lib newFolderTarget src opts sched st names _
          hnames hmode hfolder hprep rfl
        have hP' := Process_of_prepared lib newFolderTarget ⟨.ok (names.eraseIdx i), src.Get⟩
          opts (dropUnit i sched) st (names.eraseIdx i) _ rfl hmode hfolder hprep rfl
        rw [drain_source, runSched_source] at hP'
        have h0 : Without i n
            (startShared ((newFolderTarget opts.OutputFolder).Prepare st).2 names)
            (startShared ((newFolderTarget opts.OutputFolder).Prepare st).2
              (names.eraseIdx i)) := by
          refine ⟨rfl, rfl, rfl, ?_, ⟨.start n, ?_, Or.inl rfl⟩⟩
          · simp only [startShared]
            exact (eraseIdx_map _ _ _).symm
          · simp [startShared, List.getElem?_map, hi]
        have hW := Without_drain lib src (newFolderTarget opts.OutputFolder) i n
          (hnil (newFolderTarget opts.OutputFolder)) _ _
          (Without_runSched lib src (newFolderTarget opts.OutputFolder) i n
            (hnil (newFolderTarget opts.OutputFolder)) sched _ _ h0)
        rw [hP, hP', hW.err, hW.seen, hW.world, hW.units]
        cases (drain lib src (newFolderTarget opts.OutputFolder)
          (runSched lib src (newFolderTarget opts.OutputFolder) sched
            (startShared ((newFolderTarget opts.OutputFolder).Prepare st).2 names))).err.tab with
        | some e => exact ⟨rfl, rfl, rfl⟩
        | none => exact ⟨rfl, rfl, rfl⟩
  · simp [Process, hnames, hmode]

/-! ## The claims on `process` -/

/-- C4. A name whose template executes to output that is empty after trimming:
`process` returns `(nil, nil)` and leaves the world as it was (no `Apply`);
no step of its goroutine changes `err`, `seen` or the world, whatever the
other goroutines do in between; when `Process` has run its goroutines, this
one has ended with no descriptor and no error; and `Process` ends as it does
without that name: the same result, the same calls on the target with the
same arguments (the list given to `Cleanup` among them) and the same storage
as for the names without it, on the schedule without the steps of its
goroutine. -/
theorem process_skips_empty_render {σ : Type} (lib : Library) (src : ManifestSource)
    (target : Target σ) (n text buf : String) (rc : ReadCloser) (tpl : Template)
    (hget : src.Get n = .ok rc) (hread : rc.ReadAll = .ok text)
    (hparse : lib.Parse n text = .ok tpl) (hexec : tpl.Execute = .ok buf)
    (hempty : bytes.TrimSpace buf = "") :
    (∀ w : World σ, process lib src n target w = ((none, none), w)) ∧
    (∀ (s : Shared σ) (i : Nat) (g : Goroutine), s.units[i]? = some g → g.skips n →
      (stepUnit lib src target i s).world = s.world ∧
      (stepUnit lib src target i s).err = s.err ∧
      (stepUnit lib src target i s).seen = s.seen ∧
      ∃ g', (stepUnit lib src target i s).units[i]? = some g' ∧ g'.skips n) ∧
    (∀ (newFolderTarget : String → Target σ) (opts : Options) (sched : List Nat) (st : σ)
      (names : List String) (i : Nat), src.Names = .ok names → names[i]? = some n →
      (Process lib newFolderTarget src opts sched st).units ≠ [] →
      (Process lib newFolderTarget src opts sched st).units[i]? = some (.finished none none)) ∧
    (∀ (newFolderTarget : String → Target σ) (opts : Options) (sched : List Nat) (st : σ)
      (names : List String) (i : Nat), src.Names = .ok names → names[i]? = some n →
      (Process lib newFolderTarget src opts sched st).outcome =
        (Process lib newFolderTarget ⟨.ok (names.eraseIdx i), src.Get⟩ opts
          (dropUnit i sched) st).outcome ∧
      (Process lib newFolderTarget src opts sched st).world =
        (Process lib newFolderTarget ⟨.ok (names.eraseIdx i), src.Get⟩ opts
          (dropUnit i sched) st).world ∧
      (Process lib newFolderTarget src opts sched st).units.eraseIdx i =
        (Process lib newFolderTarget ⟨.ok (names.eraseIdx i), src.Get⟩ opts
          (dropUnit i sched) st).units) := by
  have hnil : ∀ (t : Target σ) (w : World σ), process lib src n t w = ((none, none), w) := by
    intro t w
    rw [process_of_rendered lib src t w n text buf rc tpl hget hread hparse hexec, if_pos hempty]
  refine ⟨hnil target, ?_, ?_, ?_⟩
  · intro s i g hi hg
    exact stepUnit_skips lib src target n (hnil target) i s g hi hg
  · intro newFolderTarget opts sched st names i hnames hi hunits
    rcases Process_cases lib newFolderTarget src opts sched st with ⟨hnone, _⟩ | ⟨names', s, hn', _, hs, hcase⟩
    · exact absurd hnone hunits
    · rw [hnames] at hn'
      cases hn'
      have hrun := run_skips lib src (newFolderTarget opts.OutputFolder) n
        (hnil (newFolderTarget opts.OutputFolder)) i sched
        (startShared ((newFolderTarget opts.OutputFolder).Prepare st).2 names)
        (by simp [startShared, List.getElem?_map, hi])
      rw [← hs] at hrun
      rcases hcase with ⟨x, _, hP⟩ | ⟨_, hP⟩
      · rw [hP]; exact hrun
      · rw [hP]; exact hrun
  · intro newFolderTarget opts sched st names i hnames hi
    exact Process_without_skipped lib newFolderTarget src opts sched st names i n hnil hnames hi

/-- C4, at the names `a` and `blank` of the examples: the template of `blank`
is white space. `Process` ends as it does for the name `a` alone: it returns
nil, `Apply` is called once, for the job `a`, and `Cleanup` gets the
descriptor of `a` alone. -/
theorem process_skips_empty_render_witness :
    (∀ w : World (List (String × String)),
      process demoLibrary (demoSource ["a", "blank"] demoDocs) "blank" (demoFolderTarget "out") w
        = ((none, none), w)) ∧
    (Process demoLibrary demoFolderTarget (demoSource ["a", "blank"] demoDocs)
      ⟨WriteToFolder, "out"⟩ [1, 0, 1] []).units[1]? = some (.finished none none) ∧
    ((Process demoLibrary demoFolderTarget (demoSource ["a", "blank"] demoDocs)
        ⟨WriteToFolder, "out"⟩ [1, 0, 1] []).outcome =
      (Process demoLibrary demoFolderTarget
        ⟨.ok (["a", "blank"].eraseIdx 1), (demoSource ["a", "blank"] demoDocs).Get⟩
        ⟨WriteToFolder, "out"⟩ (dropUnit 1 [1, 0, 1]) []).outcome ∧
     (Process demoLibrary demoFolderTarget (demoSource ["a", "blank"] demoDocs)
        ⟨WriteToFolder, "out"⟩ [1, 0, 1] []).world =
      (Process demoLibrary demoFolderTarget
        ⟨.ok (["a", "blank"].eraseIdx 1), (demoSource ["a", "blank"] demoDocs).Get⟩
        ⟨WriteToFolder, "out"⟩ (dropUnit 1 [1, 0, 1]) []).world) ∧
    (Process demoLibrary demoFolderTarget (demoSource ["a", "blank"] demoDocs)
      ⟨WriteToFolder, "out"⟩ [1, 0, 1] []).outcome = .returned none ∧
    (Process demoLibrary demoFolderTarget (demoSource ["a", "blank"] demoDocs)
      ⟨WriteToFolder, "out"⟩ [1, 0, 1] []).world.calls =
        [Call.Prepare, Call.Apply ⟨"Job", ⟨"a"⟩⟩ "kind: Job\nmetadata:\n  name: a",
         Call.Cleanup [⟨"Job", ⟨"a"⟩⟩]] :=
  have h := process_skips_empty_render demoLibrary (demoSource ["a", "blank"] demoDocs)
    (demoFolderTarget "out") "blank" " \n\t\n" " \n\t\n" ⟨.ok " \n\t\n"⟩ ⟨.ok " \n\t\n"⟩
    rfl rfl rfl rfl (by decide)
  have h4 := h.2.2.2 demoFolderTarget ⟨WriteToFolder, "out"⟩ [1, 0, 1] [] ["a", "blank"] 1 rfl rfl
  ⟨h.1, h.2.2.1 demoFolderTarget ⟨WriteToFolder, "out"⟩ [1, 0, 1] [] ["a", "blank"] 1 rfl rfl
    (by decide), ⟨h4.1, h4.2.1⟩, by decide, by decide⟩

/-- C2 (amended). A rendered, non-empty document that decodes but has an empty
kind or an empty `metadata.name`: `process` returns no descriptor and the
error `<n>: missing type data, not a valid Kubernetes manifest?`, and leaves
the world as it was (no `Apply`). -/
theorem process_missing_type_data {σ : Type} (lib : Library) (src : ManifestSource)
    (target : Target σ) (w : World σ) (n text buf : String) (rc : ReadCloser) (tpl : Template)
    (manifest : Manifest)
    (hget : src.Get n = .ok rc) (hread : rc.ReadAll = .ok text)
    (hparse : lib.Parse n text = .ok tpl) (hexec : tpl.Execute = .ok buf)
    (hdata : bytes.TrimSpace buf ≠ "")
    (hdecode : lib.Unmarshal (bytes.TrimSpace buf) = .ok manifest)
    (hmissing : manifest.Kind = "" ∨ manifest.Metadata.Name = "") :
    process lib src n target w =
      ((none, some ⟨n ++ ": missing type data, not a valid Kubernetes manifest?"⟩), w) := by
  rw [process_of_rendered lib src target w n text buf rc tpl hget hread hparse hexec,
    if_neg hdata, hdecode]
  simp only [if_pos hmissing]

/-- C2 (amended), at the name `x` of the examples, whose document has no
`metadata.name`. -/
theorem process_missing_type_data_witness :
    process demoLibrary (demoSource ["x"] demoDocs) "x" (demoFolderTarget "out") ⟨[], []⟩ =
      ((none, some ⟨"x" ++ ": missing type data, not a valid Kubernetes manifest?"⟩), ⟨[], []⟩) :=
  process_missing_type_data demoLibrary (demoSource ["x"] demoDocs) (demoFolderTarget "out")
    ⟨[], []⟩ "x" "kind: Job\n" "kind: Job\n" ⟨.ok "kind: Job\n"⟩ ⟨.ok "kind: Job\n"⟩
    ⟨"Job", ⟨""⟩⟩ rfl rfl rfl rfl (by decide) rfl (Or.inr rfl)

/-- C2 as stated fails: for the name `x`, whose rendered document `kind: Job`
decodes with an empty `metadata.name`, the message of the error is not
`x: missing type data, not a valid resource manifest`. -/
theorem process_missing_type_data_message_differs :
    bytes.TrimSpace "kind: Job\n" ≠ "" ∧
    (demoLibrary.Unmarshal (bytes.TrimSpace "kind: Job\n")).toOption = some ⟨"Job", ⟨""⟩⟩ ∧
    (process demoLibrary (demoSource ["x"] demoDocs) "x" (demoFolderTarget "out") ⟨[], []⟩).1 ≠
      (none, some ⟨"x: missing type data, not a valid resource manifest"⟩) := by
  refine ⟨by decide, rfl, by decide⟩

/-- C3 (amended). Rendered, trimmed, non-empty bytes that fail to decode:
`process` returns no descriptor and the decoder's own error, unchanged, and
leaves the world as it was (no `Apply`). -/
theorem process_decode_failure {σ : Type} (lib : Library) (src : ManifestSource)
    (target : Target σ) (w : World σ) (n text buf : String) (rc : ReadCloser) (tpl : Template)
    (err : GoError)
    (hget : src.Get n = .ok rc) (hread : rc.ReadAll = .ok text)
    (hparse : lib.Parse n text = .ok tpl) (hexec : tpl.Execute = .ok buf)
    (hdata : bytes.TrimSpace buf ≠ "")
    (hdecode : lib.Unmarshal (bytes.TrimSpace buf) = .error err) :
    process lib src n target w = ((none, some err), w) := by
  rw [process_of_rendered lib src target w n text buf rc tpl hget hread hparse hexec,
    if_neg hdata, hdecode]

/-- C3 (amended), at the name `web` of the examples, whose document is not
well-formed. -/
theorem process_decode_failure_witness :
    process demoLibrary (demoSource ["web"] demoDocs) "web" (demoFolderTarget "out") ⟨[], []⟩ =
      ((none, some ⟨"YAML error: mapping values are not allowed in this context"⟩),
        ⟨[], []⟩) :=
  process_decode_failure demoLibrary (demoSource ["web"] demoDocs) (demoFolderTarget "out")
    ⟨[], []⟩ "web" "a: b: c\n" "a: b: c\n" ⟨.ok "a: b: c\n"⟩ ⟨.ok "a: b: c\n"⟩
    ⟨"YAML error: mapping values are not allowed in this context"⟩
    rfl rfl rfl rfl (by decide) rfl

/-- C3 as stated fails: for the name `web`, whose rendered document `a: b: c`
does not decode, the error that `process` returns does not contain `web`. -/
theorem process_decode_failure_not_tagged :
    bytes.TrimSpace "a: b: c\n" ≠ "" ∧
    (demoLibrary.Unmarshal (bytes.TrimSpace "a: b: c\n")).toOption = none ∧
    ∃ err, (process demoLibrary (demoSource ["web"] demoDocs) "web" (demoFolderTarget "out")
        ⟨[], []⟩).1 = (none, some err) ∧
      strings.Contains err.msg "web" = false := by
  refine ⟨by decide, rfl, ⟨_⟩, rfl, by decide⟩

/-! ## The claims on `Process` -/

/-- C5, where the code leaves it: with a mode other than `WriteToFolder` the
switch assigns no target, and `target.Prepare()` panics. -/
theorem Process_unknown_mode_panics :
    (Process demoLibrary demoFolderTarget (demoSource ["a"] demoDocs) ⟨WriteToFolder + 1, "out"⟩
      [] []).outcome = .panicked := by
  decide

/-- If a goroutine of the call got an error from `process`, then, whatever the
schedule, `Process` returns a value that is not nil, and each of its two words
is a word of an error that `process` returned to one of the goroutines: the
value is that error when both words are of one error, and a torn value when
they are of two. -/
theorem Process_error_words_from_units {σ : Type} (lib : Library)
    (newFolderTarget : String → Target σ) (src : ManifestSource) (opts : Options)
    (sched : List Nat) (st : σ)
    (hfail : ∃ (j : Nat) (m : Option Manifest) (x : GoError),
      (Process lib newFolderTarget src opts sched st).units[j]? =
        some (Goroutine.finished m (some x))) :
    ∃ t d, (((Process lib newFolderTarget src opts sched st).outcome = .returned (some t) ∧
          d = t) ∨
        ((Process lib newFolderTarget src opts sched st).outcome = .torn t (some d) ∧ d ≠ t)) ∧
      (∃ (j : Nat) (m : Option Manifest),
        (Process lib newFolderTarget src opts sched st).units[j]? =
          some (Goroutine.finished m (some t))) ∧
      (∃ (j : Nat) (m : Option Manifest),
        (Process lib newFolderTarget src opts sched st).units[j]? =
          some (Goroutine.finished m (some d))) := by
  rcases Process_cases lib newFolderTarget src opts sched st with
    ⟨hnone, _⟩ | ⟨names, s, hn, _, hs, hcase⟩
  · obtain ⟨j, m, x, hj⟩ := hfail
    rw [hnone] at hj
    cases hj
  · have hinv : Inv lib src (newFolderTarget opts.OutputFolder) names s := by
      rw [hs]
      exact Inv_drain _ _ _ _ _ (Inv_runSched _ _ _ _ _ _ (Inv_startShared _ _ _ _ _))
    have hfin : ∀ (j : Nat) (g : Goroutine) (m : Option Manifest) (x : GoError),
        s.units[j]? = some g → g.result = some (m, some x) →
        s.units[j]? = some (Goroutine.finished m (some x)) := by
      intro j g m x hj hr
      rw [hs] at hj
      have hg := drain_all_finished _ _ _ _ j g hj
      rw [← hs] at hj
      cases g with
      | finished m' e' => cases hr; exact hj
      | start n => cases hg
      | called m' e' => cases hg
      | storing m' e' => cases hg
      | checked m' e' => cases hg
      | loaded d e' old => cases hg
    rcases hcase with ⟨t, ht, hP⟩ | ⟨hx, hP⟩
    · have hunits : (Process lib newFolderTarget src opts sched st).units = s.units := by
        rw [hP]
      obtain ⟨j, m, x, hj⟩ := hfail
      rw [hunits] at hj
      cases hd : s.err.data with
      | none => exact absurd hd (hinv.data_kept j _ m x hj rfl rfl)
      | some d =>
        obtain ⟨jt, gt, mt, hjt, hrt⟩ := hinv.err_from t ht
        obtain ⟨jd, gd, md, hjd, hrd⟩ := hinv.data_from d hd
        refine ⟨t, d, ?_, ⟨jt, mt, by rw [hunits]; exact hfin jt gt mt t hjt hrt⟩,
          ⟨jd, md, by rw [hunits]; exact hfin jd gd md d hjd hrd⟩⟩
        rw [hP, hd]
        by_cases hdt : d = t
        · left
          subst hdt
          exact ⟨by simp, rfl⟩
        · right
          refine ⟨?_, hdt⟩
          have : ¬ (some d = some t) := fun h => hdt (Option.some.inj h)
          simp [this]
    · obtain ⟨j, m, x, hj⟩ := hfail
      rw [hP] at hj
      exact absurd hx (hinv.err_kept j _ m x hj rfl rfl)

/-- On the schedule where each goroutine runs to its end before the next one
starts: if a goroutine got an error from `process`, `Process` returns the
error that `process` returned to one of the goroutines. -/
theorem Process_serial_returns_a_unit_error {σ : Type} (lib : Library)
    (newFolderTarget : String → Target σ) (src : ManifestSource) (opts : Options) (st : σ)
    (hfail : ∃ (j : Nat) (m : Option Manifest) (x : GoError),
      (Process lib newFolderTarget src opts [] st).units[j]? =
        some (Goroutine.finished m (some x))) :
    ∃ x, (Process lib newFolderTarget src opts [] st).outcome = .returned (some x) ∧
      ∃ (j : Nat) (m : Option Manifest),
        (Process lib newFolderTarget src opts [] st).units[j]? =
          some (Goroutine.finished m (some x)) := by
  obtain ⟨t, d, hout, ht, hd⟩ :=
    Process_error_words_from_units lib newFolderTarget src opts [] st hfail
  rcases hout with ⟨hret, _⟩ | ⟨htorn, hne⟩
  · exact ⟨t, hret, ht⟩
  · exfalso
    rcases Process_cases lib newFolderTarget src opts [] st with
      ⟨hnone, _⟩ | ⟨names, s, hn, _, hs, hcase⟩
    · obtain ⟨j, m, x, hj⟩ := hfail
      rw [hnone] at hj
      cases hj
    · have hser := (serial_units lib src (newFolderTarget opts.OutputFolder) names
        ((newFolderTarget opts.OutputFolder).Prepare st).2 names.length (Nat.le_refl _)).2.2.2
      have hdrain : drain lib src (newFolderTarget opts.OutputFolder)
            (runSched lib src (newFolderTarget opts.OutputFolder) []
              (startShared ((newFolderTarget opts.OutputFolder).Prepare st).2 names)) =
          (List.range names.length).foldl
            (fun s i => finishUnit lib src (newFolderTarget opts.OutputFolder) i s)
            (startShared ((newFolderTarget opts.OutputFolder).Prepare st).2 names) := by
        simp [drain, runSched, startShared]
      rw [← hdrain, ← hs] at hser
      rcases hcase with ⟨x, hx, hP⟩ | ⟨hx, hP⟩
      · rw [hP, ← hser, hx] at htorn
        simp at htorn
      · rw [hP] at htorn
        cases htorn

/-- C6, where the code leaves it: the names `missing` and `x` both fail, the
first in `src.Get` and the second in the check of the type data. Each
goroutine stores the type word of `err`, the goroutine of `x` first stores
its data word, the goroutine of `missing` last: `Process` returns the type
word of the error of `x` with the data word of the error of `missing`. -/
theorem Process_returns_a_torn_error :
    (Process demoLibrary demoFolderTarget (demoSource ["missing", "x"] demoDocs)
      ⟨WriteToFolder, "out"⟩ [0, 1, 0, 1, 1, 0] []).units =
        [.finished none (some ⟨"open missing: no such file or directory"⟩),
         .finished none (some ⟨"x: missing type data, not a valid Kubernetes manifest?"⟩)] ∧
    (Process demoLibrary demoFolderTarget (demoSource ["missing", "x"] demoDocs)
      ⟨WriteToFolder, "out"⟩ [0, 1, 0, 1, 1, 0] []).outcome =
        .torn ⟨"x: missing type data, not a valid Kubernetes manifest?"⟩
          (some ⟨"open missing: no such file or directory"⟩) := by
  decide

/-- C7. If a goroutine of the call got an error from `process`, then, whatever
the schedule, the call never calls `target.Cleanup`. -/
theorem Process_no_cleanup_after_failure {σ : Type} (lib : Library)
    (newFolderTarget : String → Target σ) (src : ManifestSource) (opts : Options)
    (sched : List Nat) (st : σ)
    (hfail : ∃ (j : Nat) (m : Option Manifest) (x : GoError), (Process lib newFolderTarget src opts sched st).units[j]? =
      some (Goroutine.finished m (some x))) :
    ∀ seen, Call.Cleanup seen ∉ (Process lib newFolderTarget src opts sched st).world.calls := by
  rcases Process_cases lib newFolderTarget src opts sched st with
    ⟨hnone, _⟩ | ⟨names, s, hn, _, hs, hcase⟩
  · obtain ⟨j, m, x, hj⟩ := hfail
    rw [hnone] at hj
    cases hj
  · have hinv : Inv lib src (newFolderTarget opts.OutputFolder) names s := by
      rw [hs]
      exact Inv_drain _ _ _ _ _ (Inv_runSched _ _ _ _ _ _ (Inv_startShared _ _ _ _ _))
    rcases hcase with ⟨x, hx, hP⟩ | ⟨hx, hP⟩
    · rw [hP]
      exact hinv.no_cleanup
    · obtain ⟨j, m, x, hj⟩ := hfail
      rw [hP] at hj
      exact absurd hx (hinv.err_kept j _ m x hj rfl rfl)

/-- C7, at the names `x` and `a` of the examples: `a` is applied, `x` fails, and
the calls on the target are `Prepare` and the `Apply` of `a`. -/
theorem Process_no_cleanup_after_failure_witness :
    (∃ (j : Nat) (m : Option Manifest) (x : GoError), (Process demoLibrary demoFolderTarget (demoSource ["x", "a"] demoDocs)
      ⟨WriteToFolder, "out"⟩ [1, 0] []).units[j]? = some (Goroutine.finished m (some x))) ∧
    ∀ seen, Call.Cleanup seen ∉ (Process demoLibrary demoFolderTarget
      (demoSource ["x", "a"] demoDocs) ⟨WriteToFolder, "out"⟩ [1, 0] []).world.calls :=
  have hfail : ∃ (j : Nat) (m : Option Manifest) (x : GoError), (Process demoLibrary demoFolderTarget (demoSource ["x", "a"] demoDocs)
      ⟨WriteToFolder, "out"⟩ [1, 0] []).units[j]? = some (Goroutine.finished m (some x)) :=
    ⟨0, none, ⟨"x: missing type data, not a valid Kubernetes manifest?"⟩, by decide⟩
  ⟨hfail, Process_no_cleanup_after_failure demoLibrary demoFolderTarget
    (demoSource ["x", "a"] demoDocs) ⟨WriteToFolder, "out"⟩ [1, 0] [] hfail⟩

/-- With a mode other than `WriteToFolder`, once `Names()` has succeeded,
`Process` panics: no case of the switch assigns `target`. -/
theorem Process_panics_of_unknown_mode {σ : Type} (lib : Library)
    (newFolderTarget : String → Target σ) (src : ManifestSource) (opts : Options)
    (sched : List Nat) (st : σ) (names : List String) (hnames : src.Names = .ok names)
    (hmode : opts.Mode ≠ WriteToFolder) :
    (Process lib newFolderTarget src opts sched st).outcome = .panicked := by
  simp [Process, hnames, hmode]

/-- In the mode `WriteToFolder` with no output folder, once `Names()` has
succeeded, `Process` returns the error `No output folder specified` and calls
nothing on a target. -/
theorem Process_no_output_folder {σ : Type} (lib : Library)
    (newFolderTarget : String → Target σ) (src : ManifestSource) (opts : Options)
    (sched : List Nat) (st : σ) (names : List String) (hnames : src.Names = .ok names)
    (hmode : opts.Mode = WriteToFolder) (hfolder : opts.OutputFolder = "") :
    (Process lib newFolderTarget src opts sched st).outcome =
        .returned (some ⟨"No output folder specified"⟩) ∧
      (Process lib newFolderTarget src opts sched st).world.calls = [] := by
  simp [Process, hnames, hmode, hfolder]

/-- C8, where the code leaves it: the jobs `a` and `b` are both applied, both
goroutines read `seen` before either stores its `append`, and `Cleanup` gets
the descriptor of `b` alone. -/
theorem Process_cleanup_misses_a_descriptor :
    (Process demoLibrary demoFolderTarget (demoSource ["a", "b"] demoDocs)
      ⟨WriteToFolder, "out"⟩ [0, 1, 0, 1, 0, 1, 0, 1] []).outcome = .returned none ∧
    (Process demoLibrary demoFolderTarget (demoSource ["a", "b"] demoDocs)
      ⟨WriteToFolder, "out"⟩ [0, 1, 0, 1, 0, 1, 0, 1] []).units =
        [.finished (some ⟨"Job", ⟨"a"⟩⟩) none, .finished (some ⟨"Job", ⟨"b"⟩⟩) none] ∧
    (Process demoLibrary demoFolderTarget (demoSource ["a", "b"] demoDocs)
      ⟨WriteToFolder, "out"⟩ [0, 1, 0, 1, 0, 1, 0, 1] []).world.calls =
        [Call.Prepare,
         Call.Apply ⟨"Job", ⟨"a"⟩⟩ "kind: Job\nmetadata:\n  name: a",
         Call.Apply ⟨"Job", ⟨"b"⟩⟩ "kind: Job\nmetadata:\n  name: b",
         Call.Cleanup [⟨"Job", ⟨"b"⟩⟩]] := by
  decide

/-- C9, where the code leaves it: the folder holds the job `c`; the jobs `a`
and `b` are both applied and `Process` returns nil; the goroutine of `a` reads
`seen` before the goroutine of `b` stores its `append`, and stores after it;
`Cleanup` then removes the file of `b` with the file of `c`. -/
theorem Process_prunes_an_applied_artifact :
    (Process demoLibrary demoFolderTarget (demoSource ["a", "b"] demoDocs)
      ⟨WriteToFolder, "out"⟩ [0, 0, 0, 1, 1, 1, 1, 0]
      [("out/job--c.yaml", "kind: Job\nmetadata:\n  name: c")]).outcome = .returned none ∧
    (Process demoLibrary demoFolderTarget (demoSource ["a", "b"] demoDocs)
      ⟨WriteToFolder, "out"⟩ [0, 0, 0, 1, 1, 1, 1, 0]
      [("out/job--c.yaml", "kind: Job\nmetadata:\n  name: c")]).units =
        [.finished (some ⟨"Job", ⟨"a"⟩⟩) none, .finished (some ⟨"Job", ⟨"b"⟩⟩) none] ∧
    (Process demoLibrary demoFolderTarget (demoSource ["a", "b"] demoDocs)
      ⟨WriteToFolder, "out"⟩ [0, 0, 0, 1, 1, 1, 1, 0]
      [("out/job--c.yaml", "kind: Job\nmetadata:\n  name: c")]).world.state =
        [("out/job--a.yaml", "kind: Job\nmetadata:\n  name: a")] := by
  decide

/-- C10, where the code leaves it: two names, both succeed, and after both
goroutines have finished `seen` has one entry: the store of `b` is overwritten
by the store of `a`, which had read `seen` while it was empty. -/
theorem seen_loses_an_append :
    (drain demoLibrary (demoSource ["a", "b"] demoDocs) (demoFolderTarget "out")
      (runSched demoLibrary (demoSource ["a", "b"] demoDocs) (demoFolderTarget "out")
        [0, 1, 0, 1, 0, 1, 1, 0] (startShared [] ["a", "b"]))).units =
        [.finished (some ⟨"Job", ⟨"a"⟩⟩) none, .finished (some ⟨"Job", ⟨"b"⟩⟩) none] ∧
    (drain demoLibrary (demoSource ["a", "b"] demoDocs) (demoFolderTarget "out")
      (runSched demoLibrary (demoSource ["a", "b"] demoDocs) (demoFolderTarget "out")
        [0, 1, 0, 1, 0, 1, 1, 0] (startShared [] ["a", "b"]))).seen = [⟨"Job", ⟨"a"⟩⟩] := by
  decide

end appdeploy
